import Mathlib

/-!
Verification of the `Umm` fixed-arena allocator (src/malloc.h).

The arena is an array of `block_count` 8-byte cells.  Each cell holds four
16-bit fields `prev`, `next`, `prev_free`, `next_free`; the high bit of
`prev` (0x8000) is the free flag.  We embed the C++ code shallowly: the
header array becomes a function `Nat → Block`, the raw bytes of the arena
become a function `Nat → Nat` (`mem`), and every allocator method becomes a
pure function.  Writes are modelled by pointwise function update, performed
in exactly the order the source performs its assignments, so aliasing
between the written cells behaves as in the source.  Field values stay
below 2^16 in every state the theorems talk about, so plain `Nat`
arithmetic agrees with the 16-bit store of the source; the only place
where machine wrap-around matters, `blocks_to_hold_bytes`, is modelled
with explicit `% 2^64` (size_t) and `% 2^32` (unsigned) reductions.
Pointers returned by `malloc`/`realloc` are represented by the index of
the owning cell (the payload byte address is `8 * index + 4`).
-/

namespace Umm

/-- The free flag, the high bit of the 16-bit `prev` field (0x8000). -/
def free_bit : Nat := 0x8000

/-- Mask clearing the free flag from `prev` (0x7fff). -/
def free_mask : Nat := 0x7fff

/-- Cell size in bytes, `sizeof(free_block_t)`. -/
def block_size : Nat := 8

/-- Used-header size in bytes, `2*sizeof(blockref_t)`, also
`offsetof(used_block_t, data)`. -/
def block_overhead : Nat := 4

/-- One cell of the arena: the four 16-bit header fields of
`free_block_t`.  For a used cell the last two fields are dead storage
(they alias payload bytes in the source). -/
structure Block where
  prev : Nat
  next : Nat
  prev_free : Nat
  next_free : Nat
deriving DecidableEq

/-- Allocator state: cell count (`block_count_`), the header view of the
arena (`blocks_`), and the raw payload bytes (`mem`, indexed by byte
offset from the start of the arena). -/
structure Heap where
  block_count : Nat
  blk : Nat → Block
  mem : Nat → Nat

/-- Store one cell, `blocks_[i] = b`. -/
def setBlk (H : Heap) (i : Nat) (b : Block) : Heap :=
  { H with blk := fun j => if j = i then b else H.blk j }

/-- Test of the free flag, `(block.prev & free_bit) != 0`. -/
def is_free (b : Block) : Bool := b.prev &&& free_bit != 0

/-- Set or clear the free flag, `Umm::set_free`. -/
def set_free (b : Block) (v : Bool) : Block :=
  if v then { b with prev := b.prev ||| free_bit }
  else { b with prev := b.prev &&& free_mask }

/-- Tail-sentinel test, `block.next == 0`. -/
def is_last_block (b : Block) : Bool := b.next == 0

/-- Size of the cell starting at `i` in cells, `Umm::size_in_blocks`:
0 for the tail sentinel, otherwise `next - index`.  (The source computes
the difference in unsigned arithmetic; on every state considered here
`index ≤ next` holds for non-sentinel cells, where truncated `Nat`
subtraction agrees with it.) -/
def size_in_blocks (H : Heap) (i : Nat) : Nat :=
  if (H.blk i).next = 0 then 0 else (H.blk i).next - i

/-- The payload byte offset of the cell at index `b`,
`(used_block_t*)&blocks_[b])->data`. -/
def ptr_from_block (b : Nat) : Nat := block_size * b + block_overhead

/-- `Umm::init`: cell 0 becomes the head sentinel and free-list head,
cell 1 the single free cell covering the arena, cell `block_count-1`
the tail sentinel.  Assignments happen in source order. -/
def init (H : Heap) : Heap :=
  let last := H.block_count - 1
  let H1 := setBlk H 0 { prev := 0, next := 1, prev_free := 1, next_free := 1 }
  let H2 := setBlk H1 1 { prev := 0, next := last, prev_free := 0, next_free := 0 }
  let H3 := setBlk H2 1 (set_free (H2.blk 1) true)
  setBlk H3 last { H3.blk last with next := 0, prev := 1 }

/-- `Umm::blocks_to_hold_bytes`: `((bytes + block_overhead) +
(block_size - 1)) / block_size` computed in 64-bit `size_t` arithmetic and
then truncated to 32-bit `unsigned` on return. -/
def blocks_to_hold_bytes (bytes : Nat) : Nat :=
  ((bytes + block_overhead) % 2 ^ 64 + (block_size - 1)) % 2 ^ 64 / block_size % 2 ^ 32

/-- Fuel-indexed free-list walk of `find_first_free_block_of_size`: start
at a cell index, stop on reaching cell 0, return the first cell whose
size is at least the request.  The source loop has no fuel; `block_count`
steps are enough on every list that is actually a sublist of the cells. -/
def ffgo (H : Heap) (req : Nat) : Nat → Nat → Option Nat
  | 0, _ => none
  | fuel + 1, i =>
    if i = 0 then none
    else if req ≤ size_in_blocks H i then some i
    else ffgo H req fuel ((H.blk i).next_free)

/-- `Umm::find_first_free_block_of_size`: first-fit walk of the free list
from `blocks_[0].next_free`. -/
def find_first_free_block_of_size (H : Heap) (req : Nat) : Option Nat :=
  ffgo H req H.block_count ((H.blk 0).next_free)

/-- `Umm::split_head`: split the cell at `b0`, first part keeping
`split_size` cells and the original flag, second part (returned) marked
used.  Writes in source order: the new cell's `prev` and `next`, then
`b0.next`, then the back-pointer of `b0`'s former successor (keeping that
successor's flag). -/
def split_head (H : Heap) (b0 split_size : Nat) : Heap × Nat :=
  let b1 := b0 + split_size
  let b0next := (H.blk b0).next
  let H1 := setBlk H b1 { H.blk b1 with prev := b0, next := (H.blk b0).next }
  let H2 := setBlk H1 b0 { H1.blk b0 with next := b1 }
  let H3 := setBlk H2 b0next
    { H2.blk b0next with prev := b1 ||| ((H2.blk b0next).prev &&& free_bit) }
  (H3, b1)

/-- `Umm::split_tail`: split the cell at `b0`, second part (returned) of
exactly `split_size` cells marked used, first part keeping the original
flag and free-list node. -/
def split_tail (H : Heap) (b0 split_size : Nat) : Heap × Nat :=
  let b1 := (H.blk b0).next - split_size
  let b0next := (H.blk b0).next
  let H1 := setBlk H b1 { H.blk b1 with prev := b0, next := (H.blk b0).next }
  let H2 := setBlk H1 b0 { H1.blk b0 with next := b1 }
  let H3 := setBlk H2 b0next
    { H2.blk b0next with prev := b1 ||| ((H2.blk b0next).prev &&& free_bit) }
  (H3, b1)

/-- `Umm::unfree`: unlink the cell at `b` from the free list and clear
its flag. -/
def unfree (H : Heap) (b : Nat) : Heap :=
  let pf := (H.blk b).prev_free
  let nf := (H.blk b).next_free
  let H1 := setBlk H pf { H.blk pf with next_free := (H.blk b).next_free }
  let H2 := setBlk H1 nf { H1.blk nf with prev_free := (H1.blk b).prev_free }
  setBlk H2 b (set_free (H2.blk b) false)

/-- `Umm::join`: merge the adjacent cell `b1` into `b0`.  Note that the
source stores `b1.prev & free_mask` into the back-pointer of `b1`'s
successor, so that successor's free flag is cleared, not preserved. -/
def join (H : Heap) (b0 b1 : Nat) : Heap :=
  let H1 := setBlk H b0 { H.blk b0 with next := (H.blk b1).next }
  let nxt := (H1.blk b1).next
  setBlk H1 nxt { H1.blk nxt with prev := (H1.blk b1).prev &&& free_mask }

/-- `Umm::malloc`: reject size 0, first-fit search, split the tail off a
block with at least two spare cells, otherwise take the block whole. -/
def malloc (H : Heap) (size : Nat) : Option Nat × Heap :=
  if size = 0 then (none, H)
  else
    let blocks_required := blocks_to_hold_bytes size
    match find_first_free_block_of_size H blocks_required with
    | none => (none, H)
    | some b =>
      if blocks_required + 1 < size_in_blocks H b then
        let s := split_tail H b blocks_required
        (some s.2, s.1)
      else (some b, unfree H b)

/-- The else-branch of `Umm::free(free_block_t&)`: push the cell at `b`
onto the head of the free list, back-patching the old head's
`prev_free`.  Assignments in source order. -/
def push_free (H : Heap) (b : Nat) : Heap :=
  let H2 := setBlk H b { H.blk b with next_free := (H.blk 0).next_free, prev_free := 0 }
  let H3 := setBlk H2 b (set_free (H2.blk b) true)
  let f1 := (H3.blk 0).next_free
  let H4 := setBlk H3 f1 { H3.blk f1 with prev_free := b }
  setBlk H4 0 { H4.blk 0 with next_free := b }

/-- `Umm::free(free_block_t&)`: merge with a free successor, then merge
into a free predecessor, otherwise push onto the free list. -/
def free_block (H : Heap) (b : Nat) : Heap :=
  let prv := (H.blk b).prev &&& free_mask
  let nxt := (H.blk b).next
  let H1 := if is_free (H.blk nxt) then join (unfree H nxt) b nxt else H
  if is_free (H1.blk prv) then join H1 prv b else push_free H1 b

/-- `Umm::free(void*)`: null does nothing, otherwise free the owning
cell. -/
def free_ptr (H : Heap) (p : Option Nat) : Heap :=
  match p with
  | none => H
  | some b => free_block H b

/-- Overlap-safe byte copy of `len` bytes from offset `src` to offset
`dst` (the semantics of `memmove` on the arena bytes). -/
def memmove (H : Heap) (dst src len : Nat) : Heap :=
  { H with mem := fun a => if dst ≤ a ∧ a < dst + len then H.mem (a - dst + src) else H.mem a }

/-- `Umm::realloc`.  Null pointer falls through to `malloc`; size 0
frees; a shrink by at least two cells splits in place (three neighbour
strategies); a grow moves to a first-fit block or fails leaving the state
untouched; otherwise the block is kept.  The source reads `block.prev`
without masking here (the mask is commented out); `block` is a used cell
so the field carries no flag. -/
def realloc (H : Heap) (ptr : Option Nat) (new_size_in_bytes : Nat) : Option Nat × Heap :=
  match ptr with
  | none => malloc H new_size_in_bytes
  | some block =>
    if new_size_in_bytes = 0 then (none, free_block H block)
    else
      let new_size := blocks_to_hold_bytes new_size_in_bytes
      let prv := (H.blk block).prev
      let nxt := (H.blk block).next
      let current_size := size_in_blocks H block
      if new_size < current_size - 1 then
        if is_free (H.blk nxt) then
          let H1 := unfree H nxt
          let s := split_head H1 block new_size
          let H3 := join s.1 s.2 nxt
          (some block, free_block H3 s.2)
        else if is_free (H.blk prv) then
          let tail := (H.blk block).next - new_size
          let H1 := memmove H (ptr_from_block tail) (ptr_from_block block) new_size_in_bytes
          let s := split_tail H1 block new_size
          (some tail, join s.1 prv block)
        else
          let s := split_head H block new_size
          (some block, free_block s.1 s.2)
      else if current_size < new_size then
        match find_first_free_block_of_size H new_size with
        | some new_block =>
          let H1 := unfree H new_block
          let H2 := memmove H1 (ptr_from_block new_block) (ptr_from_block block)
            (current_size * block_size - block_overhead)
          (some new_block, free_block H2 block)
        | none => (none, H)
      else (some block, H)

/-! ### Walks over the two lists

The spec's invariants quantify over "non-sentinel cells", meaning the
cells visited by walking the physical list from cell 0; the test
harness's `block_lists_are_consistent` does the same walk.  We define the
walks as fuel-bounded executable functions (`block_count` steps of fuel,
enough for any walk that does not revisit a cell). -/

/-- Walk the physical list by `next`, collecting cells until the tail
sentinel (or cell 0, or exhausted fuel). -/
def walkNext (H : Heap) : Nat → Nat → List Nat
  | 0, _ => []
  | fuel + 1, i =>
    if i = H.block_count - 1 ∨ i = 0 then []
    else i :: walkNext H fuel ((H.blk i).next)

/-- The non-sentinel cells of the physical list, in address order. -/
def physWalk (H : Heap) : List Nat := walkNext H H.block_count ((H.blk 0).next)

/-- Walk the free list by `next_free`, collecting cells until returning
to cell 0 (or exhausted fuel). -/
def walkFree (H : Heap) : Nat → Nat → List Nat
  | 0, _ => []
  | fuel + 1, i =>
    if i = 0 then []
    else i :: walkFree H fuel ((H.blk i).next_free)

/-- The cells on the free list, in list order from `blocks_[0].next_free`. -/
def freeWalk (H : Heap) : List Nat := walkFree H H.block_count ((H.blk 0).next_free)

/-! ### The three invariant properties claimed of every reachable state -/

/-- Physical-list consistency: sentinel links, back-and-forth link
agreement on every non-sentinel cell, strictly increasing indices ending
at the tail sentinel, and sizes summing to `block_count - 2`. -/
def physConsistent (H : Heap) : Prop :=
  (H.blk 0).next = 1 ∧ (H.blk 0).prev = 0 ∧ (H.blk (H.block_count - 1)).next = 0 ∧
  (∀ b ∈ physWalk H,
    (H.blk ((H.blk b).prev &&& free_mask)).next = b ∧
    (H.blk ((H.blk b).next)).prev &&& free_mask = b) ∧
  List.Chain' (fun a b => a < b) (physWalk H ++ [H.block_count - 1]) ∧
  ((physWalk H).map (size_in_blocks H)).sum = H.block_count - 2

/-- Free-list consistency: a non-sentinel cell is on the free-list walk
iff its flag is set, and the walk (with the head sentinel) is doubly
linked. -/
def freeConsistent (H : Heap) : Prop :=
  (∀ b ∈ physWalk H, (b ∈ freeWalk H ↔ is_free (H.blk b) = true)) ∧
  (∀ b ∈ 0 :: freeWalk H,
    (H.blk ((H.blk b).next_free)).prev_free = b ∧
    (H.blk ((H.blk b).prev_free)).next_free = b)

/-- Coalescing invariant: no walked cell with the flag set has a flagged
physical neighbour. -/
def noAdjacentFree (H : Heap) : Prop :=
  ∀ b ∈ physWalk H, is_free (H.blk b) = true →
    is_free (H.blk ((H.blk b).next)) = false ∧
    is_free (H.blk ((H.blk b).prev &&& free_mask)) = false

instance physConsistentDecidable (H : Heap) : Decidable (physConsistent H) := by
  unfold physConsistent; exact inferInstance

instance freeConsistentDecidable (H : Heap) : Decidable (freeConsistent H) := by
  unfold freeConsistent; exact inferInstance

instance noAdjacentFreeDecidable (H : Heap) : Decidable (noAdjacentFree H) := by
  unfold noAdjacentFree; exact inferInstance

/-! ### Reachable states -/

/-- A pointer the caller may legally pass to `free`/`realloc`: it owns a
non-sentinel cell of the physical list whose flag is clear. -/
def ValidPtr (H : Heap) (i : Nat) : Prop :=
  i ∈ physWalk H ∧ is_free (H.blk i) = false

instance validPtrDecidable (H : Heap) (i : Nat) : Decidable (ValidPtr H i) := by
  unfold ValidPtr; exact inferInstance

/-- A request size whose wrapped cell count is not zero (sizes in
`[2^64-11, 2^64-4]` and multiples of `2^35` minus 11 wrap the cell count
to 0 and corrupt the lists; see the counterexamples below). -/
def SizeOk (n : Nat) : Prop := n = 0 ∨ 1 ≤ blocks_to_hold_bytes n

/-- States reachable from `init` on an arena of more than 3 and at most
2^15 cells by public calls carrying valid pointers and sizes whose
wrapped cell count is nonzero. -/
inductive Reachable : Heap → Prop where
  | start (H0 : Heap) (h4 : 4 ≤ H0.block_count) (h15 : H0.block_count ≤ 2 ^ 15) :
      Reachable (init H0)
  | mstep {H : Heap} (n : Nat) (hn : SizeOk n) (h : Reachable H) :
      Reachable (malloc H n).2
  | fstep {H : Heap} (p : Option Nat) (hp : ∀ i ∈ p, ValidPtr H i) (h : Reachable H) :
      Reachable (free_ptr H p)
  | rstep {H : Heap} (p : Option Nat) (n : Nat) (hp : ∀ i ∈ p, ValidPtr H i)
      (hn : SizeOk n) (h : Reachable H) : Reachable (realloc H p n).2

/-! ### Concrete states used by counterexamples and witnesses -/

/-- An all-zero cell, the content of untouched storage in the concrete
states below. -/
def blank : Block := { prev := 0, next := 0, prev_free := 0, next_free := 0 }

/-- A freshly initialised arena of `n` cells over zeroed storage. -/
def fresh (n : Nat) : Heap := init { block_count := n, blk := fun _ => blank, mem := fun _ => 0 }

/-- An 8-cell arena after `malloc(2^64 - 11)`: the wrapped cell count is
0 and `split_tail` with split size 0 rewires the tail sentinel into a
self-loop. -/
def h8bad : Heap := (malloc (fresh 8) (2 ^ 64 - 11)).2

/-- Script on a 16-cell arena leading to two adjacent free cells:
allocate four 2-cell blocks (at 13, 11, 9, 7), free the ones at 9 and
13, then shrink the one at 11 with `realloc(·, 2^64 - 11)` whose wrapped
cell count 0 corrupts the split. -/
def h16_4 : Heap :=
  (malloc (malloc (malloc (malloc (fresh 16) 12).2 12).2 12).2 12).2

/-- The 16-cell script after freeing the blocks at 9 and 13. -/
def h16_6 : Heap := free_ptr (free_ptr h16_4 (some 9)) (some 13)

/-- The 16-cell script after the corrupting `realloc`: cells 9 and 11
are both flagged free and physically adjacent. -/
def h16a : Heap := (realloc h16_6 (some 11) (2 ^ 64 - 11)).2

/-- One further legal `free` of the block at 7: the merge path clears
cell 11's flag while leaving it on the free list. -/
def h16b : Heap := free_ptr h16a (some 7)

/-- A heap exercising `join` directly: cells 1 and 2 adjacent, cell 3
(the successor of 2) free. -/
def hJoin : Heap :=
  { block_count := 8,
    blk := fun j =>
      if j = 1 then { prev := 0, next := 2, prev_free := 0, next_free := 0 }
      else if j = 2 then { prev := 1, next := 3, prev_free := 0, next_free := 0 }
      else if j = 3 then { prev := 2 + 2 ^ 15, next := 4, prev_free := 0, next_free := 0 }
      else blank,
    mem := fun _ => 0 }

/-! ### The representation invariant

A consistent state is described by the list `L` of non-sentinel cell
indices of the physical list (in address order) and the list `F` of cell
indices on the free list (in free-list order).  Each adjacent pair of the
physical chain `0 :: L ++ [block_count-1]` is linked forward by `next`
and backward by `prev` (which carries the flag bit of the later cell),
and no pair is doubly flagged; the free chain is cyclic through cell 0.
All the claimed invariants follow from `Rep`, and every operation of the
allocator (with a nonzero wrapped cell count) preserves it. -/

/-- One physical link: `a` precedes `b`, `a` points forward to `b`, `b`
points back to `a` (possibly with its own flag bit on top), and not both
cells are flagged free. -/
def physStep (H : Heap) (a b : Nat) : Prop :=
  a < b ∧ (H.blk a).next = b ∧
  ((H.blk b).prev = a ∨ (H.blk b).prev = a + free_bit) ∧
  ¬(is_free (H.blk a) = true ∧ is_free (H.blk b) = true)

/-- One free-list link: `a` points forward to `b` and `b` back to `a`. -/
def freeStep (H : Heap) (a b : Nat) : Prop :=
  (H.blk a).next_free = b ∧ (H.blk b).prev_free = a

/-- Full structural invariant of a heap with physical cells `L` and free
list `F` (both without the sentinels). -/
structure Rep (H : Heap) (L F : List Nat) : Prop where
  hn4 : 4 ≤ H.block_count
  hn15 : H.block_count ≤ 2 ^ 15
  head1 : L.head? = some 1
  chain : List.Chain' (physStep H) (0 :: (L ++ [H.block_count - 1]))
  prev0 : (H.blk 0).prev = 0
  nextS : (H.blk (H.block_count - 1)).next = 0
  flagS : is_free (H.blk (H.block_count - 1)) = false
  fchain : List.Chain' (freeStep H) (0 :: (F ++ [0]))
  fnodup : F.Nodup
  fmem : ∀ i, i ∈ F ↔ i ∈ L ∧ is_free (H.blk i) = true

/-- The cells listed in `M` follow one another by `next` starting at
`i`, each strictly before its successor, ending at the tail sentinel. -/
def NextSeq (H : Heap) : Nat → List Nat → Prop
  | i, [] => i = H.block_count - 1
  | i, x :: M => i = x ∧ 0 < x ∧ x < (H.blk x).next ∧ NextSeq H ((H.blk x).next) M

/-- The cells listed in `M` follow one another by `next_free` starting
at `i`, ending back at cell 0. -/
def FreeSeq (H : Heap) : Nat → List Nat → Prop
  | i, [] => i = 0
  | i, x :: M => i = x ∧ x ≠ 0 ∧ FreeSeq H ((H.blk x).next_free) M

/-! ## Theorems

First the generic facts about the flag bit, the cell store and the
operations, then the claim theorems. -/

theorem free_bit_eq : free_bit = 2 ^ 15 := by norm_num [free_bit]

theorem free_mask_eq : free_mask = 2 ^ 15 - 1 := by norm_num [free_mask]

theorem and_mask_eq_mod (x : Nat) : x &&& free_mask = x % 2 ^ 15 := by
  rw [free_mask_eq, Nat.and_pow_two_sub_one_eq_mod]

theorem and_mask_of_lt {x : Nat} (h : x < 2 ^ 15) : x &&& free_mask = x := by
  rw [and_mask_eq_mod, Nat.mod_eq_of_lt h]

theorem add_bit_and_mask {x : Nat} (h : x < 2 ^ 15) : (x + free_bit) &&& free_mask = x := by
  rw [and_mask_eq_mod, free_bit_eq]
  omega

theorem or_bit_eq_add {x : Nat} (h : x < 2 ^ 15) : x ||| free_bit = x + free_bit := by
  rw [free_bit_eq, Nat.lor_comm]
  have := Nat.mul_add_lt_is_or h 1
  simpa [Nat.mul_one] using this.symm.trans (by rw [Nat.add_comm])

theorem and_mask_lt (x : Nat) : x &&& free_mask < 2 ^ 15 := by
  rw [and_mask_eq_mod]; exact Nat.mod_lt _ (by norm_num)

theorem is_free_low {b : Block} (h : b.prev < 2 ^ 15) : is_free b = false := by
  unfold is_free
  rw [free_bit_eq, Nat.and_two_pow, Nat.testBit_lt_two_pow h]
  simp

theorem is_free_high {b : Block} {x : Nat} (hx : x < 2 ^ 15) (he : b.prev = x + free_bit) :
    is_free b = true := by
  unfold is_free
  rw [he, free_bit_eq, Nat.and_two_pow, Nat.add_comm, Nat.testBit_two_pow_add_eq,
    Nat.testBit_lt_two_pow hx]
  simp

theorem prev_and_mask {b : Block} {a : Nat} (ha : a < 2 ^ 15)
    (h : b.prev = a ∨ b.prev = a + free_bit) : b.prev &&& free_mask = a := by
  rcases h with h | h <;> rw [h]
  · exact and_mask_of_lt ha
  · exact add_bit_and_mask ha

theorem flag_split {b : Block} {a : Nat} (ha : a < 2 ^ 15)
    (h : b.prev = a ∨ b.prev = a + free_bit) :
    (is_free b = false ∧ b.prev = a) ∨ (is_free b = true ∧ b.prev = a + free_bit) := by
  rcases h with h | h
  · exact Or.inl ⟨is_free_low (h ▸ ha), h⟩
  · exact Or.inr ⟨is_free_high ha h, h⟩

theorem set_free_true_eq {b : Block} (h : b.prev < 2 ^ 15) :
    set_free b true = { b with prev := b.prev + free_bit } := by
  unfold set_free
  rw [if_pos rfl, or_bit_eq_add h]

theorem set_free_false_eq {b : Block} {x : Nat} (hx : x < 2 ^ 15)
    (he : b.prev = x + free_bit) : set_free b false = { b with prev := x } := by
  unfold set_free
  rw [if_neg (by simp), he, add_bit_and_mask hx]

theorem set_free_false_eq_low {b : Block} (h : b.prev < 2 ^ 15) :
    set_free b false = b := by
  unfold set_free
  rw [if_neg (by simp), and_mask_of_lt h]

theorem setBlk_blk (H : Heap) (i : Nat) (b : Block) (j : Nat) :
    (setBlk H i b).blk j = if j = i then b else H.blk j := rfl

theorem setBlk_same (H : Heap) (i : Nat) (b : Block) : (setBlk H i b).blk i = b := by
  simp [setBlk]

theorem setBlk_other (H : Heap) (i : Nat) (b : Block) {j : Nat} (h : j ≠ i) :
    (setBlk H i b).blk j = H.blk j := by
  simp [setBlk, h]

/-- Effect of `join H b0 b1` cell by cell (for distinct `b0`, `b1` and
successor, as at every call site): `b0` gets the successor's index as its
new forward link, the successor's back link becomes `b1`'s back link
masked, and nothing else changes. -/
theorem join_spec (H : Heap) (b0 b1 : Nat) (hb01 : b0 ≠ b1)
    (hb0c : b0 ≠ (H.blk b1).next) :
    (join H b0 b1).blk b0 = { H.blk b0 with next := (H.blk b1).next } ∧
    (join H b0 b1).blk ((H.blk b1).next) =
      { H.blk ((H.blk b1).next) with prev := (H.blk b1).prev &&& free_mask } ∧
    (∀ j, j ≠ b0 → j ≠ (H.blk b1).next → (join H b0 b1).blk j = H.blk j) ∧
    (join H b0 b1).mem = H.mem ∧ (join H b0 b1).block_count = H.block_count := by
  refine ⟨?_, ?_, fun j hj0 hjc => ?_, rfl, rfl⟩
  · simp [join, setBlk_blk, hb01.symm, hb0c, hb0c.symm]
  · simp [join, setBlk_blk, hb01.symm, hb0c, hb0c.symm]
  · simp [join, setBlk_blk, hb01.symm, hj0, hjc]

/-! ### Walks, sequences and the two lists of a consistent heap -/

theorem is_free_congr {a b : Block} (h : a.prev = b.prev) : is_free a = is_free b := by
  unfold is_free; rw [h]

theorem physStep_congr {H K : Heap} {a b : Nat}
    (ea : (K.blk a).next = (H.blk a).next) (pa : (K.blk a).prev = (H.blk a).prev)
    (pb : (K.blk b).prev = (H.blk b).prev) :
    physStep H a b → physStep K a b := by
  rintro ⟨h1, h2, h3, h4⟩
  refine ⟨h1, ea.trans h2, by rw [pb]; exact h3, ?_⟩
  rw [is_free_congr pa, is_free_congr pb]
  exact h4

theorem freeStep_congr {H K : Heap} {a b : Nat}
    (ea : (K.blk a).next_free = (H.blk a).next_free)
    (pb : (K.blk b).prev_free = (H.blk b).prev_free) :
    freeStep H a b → freeStep K a b := by
  rintro ⟨h1, h2⟩; exact ⟨ea.trans h1, pb.trans h2⟩

theorem chain'_congr_mem {R S : Nat → Nat → Prop} {l : List Nat} (h : List.Chain' R l)
    (hm : ∀ a ∈ l, ∀ b ∈ l, R a b → S a b) : List.Chain' S l := by
  induction l with
  | nil => exact List.chain'_nil
  | cons a l ih =>
    rw [List.chain'_cons'] at h ⊢
    refine ⟨fun y hy => hm a (by simp) y
      (List.mem_cons_of_mem a (List.mem_of_mem_head? hy)) (h.1 y hy), ?_⟩
    exact ih h.2 fun x hx y hy hr =>
      hm x (List.mem_cons_of_mem a hx) y (List.mem_cons_of_mem a hy) hr

theorem rep_lt_chain {H : Heap} {L F : List Nat} (h : Rep H L F) :
    List.Pairwise (fun a b => a < b) (0 :: (L ++ [H.block_count - 1])) :=
  List.chain'_iff_pairwise.mp (h.chain.imp (fun _ _ hab => hab.1))

theorem rep_bounds {H : Heap} {L F : List Nat} (h : Rep H L F) :
    ∀ x ∈ L, 0 < x ∧ x < H.block_count - 1 := by
  have hp := rep_lt_chain h
  rw [List.pairwise_cons, List.pairwise_append] at hp
  intro x hx
  exact ⟨hp.1 x (List.mem_append_left _ hx), hp.2.2.2 x hx _ (by simp)⟩

theorem rep_nodup {H : Heap} {L F : List Nat} (h : Rep H L F) : L.Nodup := by
  have hp := rep_lt_chain h
  rw [List.pairwise_cons, List.pairwise_append] at hp
  exact hp.2.1.imp Nat.ne_of_lt

theorem length_lt_of_bounds {l : List Nat} {m : Nat} (hm : 0 < m) (hn : l.Nodup)
    (hb : ∀ x ∈ l, 0 < x ∧ x < m) : l.length < m := by
  have h1 : l.toFinset.card = l.length := List.toFinset_card_of_nodup hn
  have h2 : l.toFinset ⊆ Finset.Ico 1 m := by
    intro x hx
    rw [List.mem_toFinset] at hx
    rw [Finset.mem_Ico]
    exact ⟨(hb x hx).1, (hb x hx).2⟩
  have h3 := Finset.card_le_card h2
  rw [h1, Nat.card_Ico] at h3
  omega

theorem nextSeq_le {H : Heap} : ∀ (M : List Nat) (i : Nat), NextSeq H i M →
    i ≤ H.block_count - 1
  | [], _, h => Nat.le_of_eq h
  | x :: M, i, h => by
    obtain ⟨heq, _, hlt, hrest⟩ := h
    subst heq
    exact Nat.le_of_lt (Nat.lt_of_lt_of_le hlt (nextSeq_le M _ hrest))

theorem nextSeq_of_chain {H : Heap} : ∀ (M : List Nat) (x : Nat),
    List.Chain' (physStep H) (x :: (M ++ [H.block_count - 1])) →
    NextSeq H ((H.blk x).next) M
  | [], x, h => by
    rw [List.nil_append, List.chain'_cons] at h
    exact h.1.2.1
  | y :: M, x, h => by
    rw [List.cons_append, List.chain'_cons] at h
    have hy := nextSeq_of_chain M y h.2
    refine ⟨h.1.2.1, Nat.lt_of_le_of_lt (Nat.zero_le x) h.1.1, ?_, hy⟩
    rcases M with _ | ⟨z, M⟩
    · rw [List.nil_append, List.chain'_cons] at h
      exact h.2.1.2.1 ▸ h.2.1.1
    · rw [List.cons_append, List.chain'_cons] at h
      exact h.2.1.2.1 ▸ h.2.1.1

theorem walkNext_eq {H : Heap} : ∀ (M : List Nat) (i fuel : Nat), NextSeq H i M →
    M.length < fuel → walkNext H fuel i = M
  | [], i, fuel + 1, h, _ => by
    unfold NextSeq at h
    unfold walkNext
    rw [if_pos (Or.inl h)]
  | x :: M, i, fuel + 1, h, hf => by
    obtain ⟨heq, hx0, hxn, hrest⟩ := h
    subst heq
    have hxs : i < H.block_count - 1 := Nat.lt_of_lt_of_le hxn (nextSeq_le M _ hrest)
    unfold walkNext
    rw [if_neg (by omega)]
    rw [walkNext_eq M _ fuel hrest (by simpa using Nat.lt_of_succ_lt_succ hf)]

theorem physWalk_eq {H : Heap} {L F : List Nat} (h : Rep H L F) : physWalk H = L := by
  have hseq : NextSeq H ((H.blk 0).next) L := nextSeq_of_chain L 0 h.chain
  have hlen : L.length < H.block_count := by
    have := length_lt_of_bounds (m := H.block_count - 1) (by have := h.hn4; omega)
      (rep_nodup h) (rep_bounds h)
    omega
  exact walkNext_eq L _ _ hseq hlen

theorem freeSeq_of_fchain {H : Heap} : ∀ (F : List Nat) (x : Nat),
    List.Chain' (freeStep H) (x :: (F ++ [0])) → (∀ y ∈ F, y ≠ 0) →
    FreeSeq H ((H.blk x).next_free) F
  | [], x, h, _ => by
    rw [List.nil_append, List.chain'_cons] at h
    exact h.1.1
  | y :: F, x, h, hy => by
    rw [List.cons_append, List.chain'_cons] at h
    exact ⟨h.1.1, hy y (by simp), freeSeq_of_fchain F y h.2 (fun z hz => hy z (by simp [hz]))⟩

theorem walkFree_eq {H : Heap} : ∀ (F : List Nat) (i fuel : Nat), FreeSeq H i F →
    F.length < fuel → walkFree H fuel i = F
  | [], i, fuel + 1, h, _ => by
    unfold FreeSeq at h
    unfold walkFree
    rw [if_pos h]
  | x :: F, i, fuel + 1, h, hf => by
    obtain ⟨heq, hx0, hrest⟩ := h
    subst heq
    unfold walkFree
    rw [if_neg hx0]
    rw [walkFree_eq F _ fuel hrest (by simpa using Nat.lt_of_succ_lt_succ hf)]

theorem rep_fsub {H : Heap} {L F : List Nat} (h : Rep H L F) :
    ∀ x ∈ F, 0 < x ∧ x < H.block_count - 1 :=
  fun x hx => rep_bounds h x ((h.fmem x).mp hx).1

theorem rep_flen {H : Heap} {L F : List Nat} (h : Rep H L F) :
    F.length < H.block_count := by
  have := length_lt_of_bounds (m := H.block_count - 1) (by have := h.hn4; omega)
    h.fnodup (rep_fsub h)
  omega

theorem freeWalk_eq {H : Heap} {L F : List Nat} (h : Rep H L F) : freeWalk H = F := by
  have hseq : FreeSeq H ((H.blk 0).next_free) F :=
    freeSeq_of_fchain F 0 h.fchain
      (fun y hy => Nat.pos_iff_ne_zero.mp (rep_fsub h y hy).1)
  exact walkFree_eq F _ _ hseq (rep_flen h)

theorem ffgo_eq_find {H : Heap} {req : Nat} : ∀ (F : List Nat) (i fuel : Nat),
    FreeSeq H i F → F.length < fuel →
    ffgo H req fuel i = F.find? (fun x => decide (req ≤ size_in_blocks H x))
  | [], i, fuel + 1, h, _ => by
    unfold FreeSeq at h
    unfold ffgo
    rw [if_pos h, List.find?_nil]
  | x :: F, i, fuel + 1, h, hf => by
    obtain ⟨heq, hx0, hrest⟩ := h
    subst heq
    unfold ffgo
    rw [if_neg hx0]
    by_cases hs : req ≤ size_in_blocks H i
    · rw [if_pos hs, List.find?_cons_of_pos _ (by simpa using hs)]
    · rw [if_neg hs, List.find?_cons_of_neg _ (by simpa using hs)]
      exact ffgo_eq_find F _ fuel hrest (by simpa using Nat.lt_of_succ_lt_succ hf)

theorem fffb_eq_find {H : Heap} {L F : List Nat} (h : Rep H L F) (req : Nat) :
    find_first_free_block_of_size H req =
      F.find? (fun x => decide (req ≤ size_in_blocks H x)) := by
  unfold find_first_free_block_of_size
  exact ffgo_eq_find F _ _ (freeSeq_of_fchain F 0 h.fchain
    (fun y hy => Nat.pos_iff_ne_zero.mp (rep_fsub h y hy).1)) (rep_flen h)

theorem find?_split {p : Nat → Bool} : ∀ {F : List Nat} {b : Nat}, F.find? p = some b →
    ∃ F1 F2, F = F1 ++ b :: F2 ∧ p b = true ∧ ∀ x ∈ F1, p x = false
  | [], b, h => by simp [List.find?_nil] at h
  | x :: F, b, h => by
    by_cases hx : p x = true
    · rw [List.find?_cons_of_pos _ hx] at h
      obtain rfl : x = b := by simpa using h
      exact ⟨[], F, rfl, hx, by simp⟩
    · rw [List.find?_cons_of_neg _ (by simpa using hx)] at h
      obtain ⟨F1, F2, rfl, hb, hf⟩ := find?_split h
      refine ⟨x :: F1, F2, rfl, hb, ?_⟩
      intro y hy
      rcases List.mem_cons.mp hy with rfl | hy
      · simpa using hx
      · exact hf y hy


/-! ### Per-cell effect of the internal operations -/

theorem chain'_pair {R : Nat → Nat → Prop} {l1 l2 : List Nat} {a b : Nat}
    (h : List.Chain' R (l1 ++ a :: b :: l2)) : R a b :=
  (List.chain'_cons.mp (List.chain'_split.mp h).2).1

theorem chain'_of_adj {S : Nat → Nat → Prop} :
    ∀ (l : List Nat), (∀ l1 a b l2, l = l1 ++ a :: b :: l2 → S a b) → List.Chain' S l
  | [], _ => List.chain'_nil
  | [_], _ => List.chain'_singleton _
  | a :: b :: l, hm =>
    List.chain'_cons.mpr ⟨hm [] a b l rfl,
      chain'_of_adj (b :: l) (fun l1 x y l2 h => hm (a :: l1) x y l2 (by rw [List.cons_append, h]))⟩

theorem chain'_transfer {R S : Nat → Nat → Prop} {l : List Nat} (h : List.Chain' R l)
    (hm : ∀ l1 a b l2, l = l1 ++ a :: b :: l2 → R a b → S a b) : List.Chain' S l :=
  chain'_of_adj l (fun l1 a b l2 he => hm l1 a b l2 he (chain'_pair (he ▸ h)))

theorem nextSeq_sum {H : Heap} : ∀ (M : List Nat) (i : Nat), NextSeq H i M →
    (M.map (size_in_blocks H)).sum = (H.block_count - 1) - i
  | [], i, h => by
    unfold NextSeq at h
    simp [h]
  | x :: M, i, h => by
    obtain ⟨heq, hx0, hxn, hrest⟩ := h
    subst heq
    have hle := nextSeq_le M _ hrest
    have hsum := nextSeq_sum M _ hrest
    have hsz : size_in_blocks H i = (H.blk i).next - i := by
      unfold size_in_blocks
      rw [if_neg (by omega)]
    rw [List.map_cons, List.sum_cons, hsz, hsum]
    omega

theorem rep_cons {H : Heap} {L F : List Nat} (h : Rep H L F) :
    ∃ L2, L = 1 :: L2 := by
  have h1 := h.head1
  cases L with
  | nil => simp at h1
  | cons a L2 =>
    simp only [List.head?_cons, Option.some.injEq] at h1
    exact ⟨L2, by rw [h1]⟩

theorem rep_next0 {H : Heap} {L F : List Nat} (h : Rep H L F) : (H.blk 0).next = 1 := by
  obtain ⟨L2, rfl⟩ := rep_cons h
  have hc : List.Chain' (physStep H) ([] ++ 0 :: 1 :: (L2 ++ [H.block_count - 1])) := by
    simpa using h.chain
  exact (chain'_pair hc).2.1

theorem rep_free0 {H : Heap} {L F : List Nat} (h : Rep H L F) : is_free (H.blk 0) = false :=
  is_free_low (by rw [h.prev0]; norm_num)

theorem rep_s_pos {H : Heap} {L F : List Nat} (h : Rep H L F) : 2 < H.block_count - 1 := by
  have := h.hn4; omega

theorem rep_s_lt {H : Heap} {L F : List Nat} (h : Rep H L F) :
    H.block_count - 1 < 2 ^ 15 := by
  have h15 := h.hn15
  have h4 := h.hn4
  omega

theorem split_tail_spec (H : Heap) (b0 k : Nat)
    (h01 : b0 ≠ (H.blk b0).next - k) (h1c : (H.blk b0).next - k ≠ (H.blk b0).next)
    (h0c : b0 ≠ (H.blk b0).next) :
    (split_tail H b0 k).1.blk b0 = { H.blk b0 with next := (H.blk b0).next - k } ∧
    (split_tail H b0 k).1.blk ((H.blk b0).next - k) =
      { H.blk ((H.blk b0).next - k) with prev := b0, next := (H.blk b0).next } ∧
    (split_tail H b0 k).1.blk ((H.blk b0).next) =
      { H.blk ((H.blk b0).next) with
        prev := ((H.blk b0).next - k) ||| ((H.blk ((H.blk b0).next)).prev &&& free_bit) } ∧
    (∀ j, j ≠ b0 → j ≠ (H.blk b0).next - k → j ≠ (H.blk b0).next →
      (split_tail H b0 k).1.blk j = H.blk j) ∧
    (split_tail H b0 k).1.mem = H.mem ∧
    (split_tail H b0 k).1.block_count = H.block_count ∧
    (split_tail H b0 k).2 = (H.blk b0).next - k := by
  refine ⟨?_, ?_, ?_, fun j hj0 hj1 hjc => ?_, rfl, rfl, rfl⟩
  · simp [split_tail, setBlk_blk, h01, h0c, h01.symm, h0c.symm, h1c]
  · simp [split_tail, setBlk_blk, h01, h0c, h01.symm, h0c.symm, h1c, h1c.symm]
  · simp [split_tail, setBlk_blk, h01, h0c, h01.symm, h0c.symm, h1c, h1c.symm]
  · simp [split_tail, setBlk_blk, hj0, hj1, hjc]

theorem split_head_spec (H : Heap) (b0 k : Nat)
    (h01 : b0 ≠ b0 + k) (h1c : b0 + k ≠ (H.blk b0).next)
    (h0c : b0 ≠ (H.blk b0).next) :
    (split_head H b0 k).1.blk b0 = { H.blk b0 with next := b0 + k } ∧
    (split_head H b0 k).1.blk (b0 + k) =
      { H.blk (b0 + k) with prev := b0, next := (H.blk b0).next } ∧
    (split_head H b0 k).1.blk ((H.blk b0).next) =
      { H.blk ((H.blk b0).next) with
        prev := (b0 + k) ||| ((H.blk ((H.blk b0).next)).prev &&& free_bit) } ∧
    (∀ j, j ≠ b0 → j ≠ b0 + k → j ≠ (H.blk b0).next →
      (split_head H b0 k).1.blk j = H.blk j) ∧
    (split_head H b0 k).1.mem = H.mem ∧
    (split_head H b0 k).1.block_count = H.block_count ∧
    (split_head H b0 k).2 = b0 + k := by
  refine ⟨?_, ?_, ?_, fun j hj0 hj1 hjc => ?_, rfl, rfl, rfl⟩
  · simp [split_head, setBlk_blk, h01, h0c, h01.symm, h0c.symm, h1c]
  · simp [split_head, setBlk_blk, h01, h0c, h01.symm, h0c.symm, h1c, h1c.symm]
  · simp [split_head, setBlk_blk, h01, h0c, h01.symm, h0c.symm, h1c, h1c.symm]
  · simp [split_head, setBlk_blk, hj0, hj1, hjc]


theorem unfree_spec (H : Heap) (b : Nat)
    (hpb : (H.blk b).prev_free ≠ b) (hnb : (H.blk b).next_free ≠ b) :
    (unfree H b).blk b = set_free (H.blk b) false ∧
    (∀ j, j ≠ b → j ≠ (H.blk b).prev_free → j ≠ (H.blk b).next_free →
      (unfree H b).blk j = H.blk j) ∧
    ((H.blk b).prev_free = (H.blk b).next_free →
      (unfree H b).blk ((H.blk b).prev_free) =
        { H.blk ((H.blk b).prev_free) with
          next_free := (H.blk b).next_free, prev_free := (H.blk b).prev_free }) ∧
    ((H.blk b).prev_free ≠ (H.blk b).next_free →
      (unfree H b).blk ((H.blk b).prev_free) =
        { H.blk ((H.blk b).prev_free) with next_free := (H.blk b).next_free } ∧
      (unfree H b).blk ((H.blk b).next_free) =
        { H.blk ((H.blk b).next_free) with prev_free := (H.blk b).prev_free }) ∧
    (unfree H b).mem = H.mem ∧ (unfree H b).block_count = H.block_count := by
  refine ⟨?_, fun j hjb hjp hjn => ?_, fun hpn => ?_, fun hpn => ⟨?_, ?_⟩, rfl, rfl⟩
  · simp [unfree, setBlk_blk, hpb, hnb, hpb.symm, hnb.symm, set_free]
  · simp [unfree, setBlk_blk, hjb, hjp, hjn]
  · simp [unfree, setBlk_blk, hpb, hnb, hpb.symm, hnb.symm, hpn]
  · simp [unfree, setBlk_blk, hpb, hnb, hpb.symm, hnb.symm, hpn, Ne.symm hpn]
  · simp [unfree, setBlk_blk, hpb, hnb, hpb.symm, hnb.symm, hpn, Ne.symm hpn]

theorem push_free_spec (H : Heap) (b : Nat)
    (hb0 : b ≠ 0) (hbf : b ≠ (H.blk 0).next_free) :
    (push_free H b).blk b =
      set_free { H.blk b with next_free := (H.blk 0).next_free, prev_free := 0 } true ∧
    (∀ j, j ≠ b → j ≠ 0 → j ≠ (H.blk 0).next_free → (push_free H b).blk j = H.blk j) ∧
    ((H.blk 0).next_free = 0 →
      (push_free H b).blk 0 = { H.blk 0 with prev_free := b, next_free := b }) ∧
    ((H.blk 0).next_free ≠ 0 →
      (push_free H b).blk ((H.blk 0).next_free) =
        { H.blk ((H.blk 0).next_free) with prev_free := b } ∧
      (push_free H b).blk 0 = { H.blk 0 with next_free := b }) ∧
    (push_free H b).mem = H.mem ∧ (push_free H b).block_count = H.block_count := by
  refine ⟨?_, fun j hjb hj0 hjf => ?_, fun hf0 => ?_, fun hf0 => ⟨?_, ?_⟩, rfl, rfl⟩
  · simp [push_free, setBlk_blk, hb0, hbf, hb0.symm, hbf.symm, set_free]
  · simp [push_free, setBlk_blk, hjb, hj0, hjf, hb0, hbf, hb0.symm, hbf.symm]
  · simp [push_free, setBlk_blk, hb0, hbf, hb0.symm, hbf.symm, hf0]
  · simp [push_free, setBlk_blk, hb0, hbf, hb0.symm, hbf.symm, hf0, Ne.symm hf0]
  · simp [push_free, setBlk_blk, hb0, hbf, hb0.symm, hbf.symm, hf0, Ne.symm hf0]


/-! ### Chain transfer toolkit and the initial state -/

theorem chain'_append_of {R : Nat → Nat → Prop} {A B : List Nat} (hA : List.Chain' R A)
    (hB : List.Chain' R B)
    (hAB : ∀ x, A.getLast? = some x → ∀ y, B.head? = some y → R x y) :
    List.Chain' R (A ++ B) :=
  List.chain'_append.mpr ⟨hA, hB, fun x hx y hy => hAB x hx y hy⟩

theorem chain'_last {R : Nat → Nat → Prop} {X : List Nat} {b x : Nat}
    (h : List.Chain' R (X ++ [b])) (hx : X.getLast? = some x) : R x b :=
  (List.chain'_append.mp h).2.2 x hx b rfl

theorem chain'_head {R : Nat → Nat → Prop} {b y : Nat} {Y : List Nat}
    (h : List.Chain' R (b :: Y)) (hy : Y.head? = some y) : R b y :=
  (List.chain'_cons'.mp h).1 y hy

theorem ne_getLast_of_mem_dropLast {l : List Nat} (hnd : l.Nodup) {x z : Nat}
    (hx : x ∈ l.dropLast) (hz : l.getLast? = some z) : x ≠ z := by
  have hne : l ≠ [] := by
    intro he
    rw [he] at hz
    simp at hz
  have hl : l.dropLast ++ [l.getLast hne] = l := List.dropLast_append_getLast hne
  have hzz : z = l.getLast hne := by
    rw [List.getLast?_eq_getLast l hne] at hz
    exact (Option.some.injEq _ _ ▸ hz).symm
  rw [← hl] at hnd
  rw [List.nodup_append] at hnd
  intro he
  exact hnd.2.2 hx (by rw [he, hzz]; simp)

theorem ne_head_of_mem_tail {l : List Nat} (hnd : l.Nodup) {x z : Nat}
    (hx : x ∈ l.tail) (hz : l.head? = some z) : x ≠ z := by
  cases l with
  | nil => simp at hz
  | cons a l =>
    simp only [List.head?_cons, Option.some.injEq] at hz
    subst hz
    rw [List.nodup_cons] at hnd
    simp only [List.tail_cons] at hx
    intro he
    exact hnd.1 (he ▸ hx)

theorem chain'_transfer_free {H K : Heap} : ∀ {l : List Nat},
    List.Chain' (freeStep H) l →
    (∀ x ∈ l.dropLast, (K.blk x).next_free = (H.blk x).next_free) →
    (∀ x ∈ l.tail, (K.blk x).prev_free = (H.blk x).prev_free) →
    List.Chain' (freeStep K) l
  | [], _, _, _ => List.chain'_nil
  | [_], _, _, _ => List.chain'_singleton _
  | a :: b :: l, h, hn, hp => by
    rw [List.chain'_cons] at h ⊢
    refine ⟨⟨?_, ?_⟩, ?_⟩
    · rw [hn a (by simp [List.dropLast_cons₂])]
      exact h.1.1
    · rw [hp b (by simp)]
      exact h.1.2
    · exact chain'_transfer_free h.2
        (fun x hx => hn x (by simp [List.dropLast_cons₂]; tauto))
        (fun x hx => hp x (by simp at hx ⊢; tauto))

theorem chain'_transfer_phys {H K : Heap} : ∀ {l : List Nat},
    List.Chain' (physStep H) l →
    (∀ x ∈ l, x < 2 ^ 15) →
    (∀ x ∈ l.dropLast, (K.blk x).next = (H.blk x).next) →
    (∀ x ∈ l, is_free (K.blk x) = true → is_free (H.blk x) = true) →
    (∀ x ∈ l.tail,
      (K.blk x).prev = (H.blk x).prev ∨ (K.blk x).prev = (H.blk x).prev &&& free_mask) →
    List.Chain' (physStep K) l
  | [], _, _, _, _, _ => List.chain'_nil
  | [_], _, _, _, _, _ => List.chain'_singleton _
  | a :: b :: l, h, hbd, hn, hf, hp => by
    rw [List.chain'_cons] at h ⊢
    obtain ⟨⟨hab, hnx, hor, hadj⟩, hrest⟩ := h
    refine ⟨⟨hab, ?_, ?_, ?_⟩, ?_⟩
    · rw [hn a (by simp [List.dropLast_cons₂])]
      exact hnx
    · rcases hp b (by simp) with hpb | hpb
      · rw [hpb]; exact hor
      · rw [hpb]
        left
        exact prev_and_mask (hbd a (by simp)) hor
    · intro hc
      exact hadj ⟨hf a (by simp) hc.1, hf b (by simp) hc.2⟩
    · exact chain'_transfer_phys hrest
        (fun x hx => hbd x (by simp at hx ⊢; tauto))
        (fun x hx => hn x (by simp [List.dropLast_cons₂]; tauto))
        (fun x hx => hf x (by simp at hx ⊢; tauto))
        (fun x hx => hp x (by simp at hx ⊢; tauto))

theorem rep_memmove {H : Heap} {L F : List Nat} (h : Rep H L F) (d s l : Nat) :
    Rep (memmove H d s l) L F :=
  ⟨h.hn4, h.hn15, h.head1, h.chain, h.prev0, h.nextS, h.flagS, h.fchain, h.fnodup, h.fmem⟩

theorem rep_init (H0 : Heap) (h4 : 4 ≤ H0.block_count) (h15 : H0.block_count ≤ 2 ^ 15) :
    Rep (init H0) [1] [1] := by
  have hcnt : (init H0).block_count = H0.block_count := rfl
  have hs3 : 3 ≤ H0.block_count - 1 := by omega
  have h01 : (0 : Nat) ≠ 1 := by omega
  have h0l : (0 : Nat) ≠ H0.block_count - 1 := by omega
  have h1l : (1 : Nat) ≠ H0.block_count - 1 := by omega
  have e0 : (init H0).blk 0 = { prev := 0, next := 1, prev_free := 1, next_free := 1 } := by
    simp [init, setBlk_blk, h01, h0l, h01.symm, h0l.symm, h1l, h1l.symm]
  have e1 : (init H0).blk 1 =
      { prev := free_bit, next := H0.block_count - 1, prev_free := 0, next_free := 0 } := by
    simp [init, setBlk_blk, h01, h0l, h01.symm, h0l.symm, h1l, h1l.symm, set_free]
  have el : (init H0).blk (H0.block_count - 1) =
      { H0.blk (H0.block_count - 1) with next := 0, prev := 1 } := by
    simp [init, setBlk_blk, h01, h0l, h01.symm, h0l.symm, h1l, h1l.symm]
  refine ⟨h4, h15, rfl, ?_, by rw [e0], by rw [hcnt, el], ?_, ?_, by simp, ?_⟩
  · rw [hcnt]
    refine List.chain'_cons.mpr ⟨?_, List.chain'_cons.mpr ⟨?_, List.chain'_singleton _⟩⟩
    · refine ⟨by omega, by rw [e0], Or.inr (by rw [e1]; simp [free_bit]), ?_⟩
      rw [e0]
      intro hc
      have := is_free_low (b := { prev := 0, next := 1, prev_free := 1, next_free := 1 })
        (by norm_num)
      rw [this] at hc
      exact absurd hc.1 (by simp)
    · refine ⟨by omega, by rw [e1], Or.inl (by rw [el]), ?_⟩
      rw [el]
      intro hc
      have := is_free_low (b := { H0.blk (H0.block_count - 1) with next := 0, prev := 1 })
        (by norm_num)
      rw [this] at hc
      exact absurd hc.2 (by simp)
  · rw [hcnt, el]
    exact is_free_low (by norm_num)
  · refine List.chain'_cons.mpr ⟨?_, List.chain'_cons.mpr ⟨?_, List.chain'_singleton _⟩⟩
    · exact ⟨by rw [e0], by rw [e1]⟩
    · exact ⟨by rw [e1], by rw [e0]⟩
  · intro i
    constructor
    · intro hi
      simp only [List.mem_singleton] at hi
      subst hi
      refine ⟨by simp, ?_⟩
      exact is_free_high (x := 0) (by norm_num) (by rw [e1]; simp)
    · intro ⟨hi, _⟩
      simpa using hi


/-! ### Invariant preservation: unfree -/

theorem set_free_next (b : Block) (v : Bool) : (set_free b v).next = b.next := by
  unfold set_free; split <;> rfl

theorem set_free_prev_free (b : Block) (v : Bool) : (set_free b v).prev_free = b.prev_free := by
  unfold set_free; split <;> rfl

theorem set_free_next_free (b : Block) (v : Bool) : (set_free b v).next_free = b.next_free := by
  unfold set_free; split <;> rfl

theorem set_free_false_prev (b : Block) : (set_free b false).prev = b.prev &&& free_mask := rfl

theorem is_free_set_free_false (b : Block) : is_free (set_free b false) = false :=
  is_free_low (by rw [set_free_false_prev]; exact and_mask_lt _)

theorem rep_mem_lt {H : Heap} {L F : List Nat} (h : Rep H L F) :
    ∀ x ∈ 0 :: (L ++ [H.block_count - 1]), x < 2 ^ 15 := by
  intro x hx
  rcases List.mem_cons.mp hx with rfl | hx
  · norm_num
  · rcases List.mem_append.mp hx with hx | hx
    · exact Nat.lt_trans (rep_bounds h x hx).2 (rep_s_lt h)
    · simp only [List.mem_singleton] at hx
      subst hx
      exact rep_s_lt h

theorem mem_of_getLast?_local {l : List Nat} {x : Nat} (h : l.getLast? = some x) : x ∈ l := by
  have hne : l ≠ [] := by
    intro he; rw [he] at h; simp at h
  rw [List.getLast?_eq_getLast l hne, Option.some.injEq] at h
  rw [← h]
  exact List.getLast_mem hne

theorem mem_of_head?_local {l : List Nat} {x : Nat} (h : l.head? = some x) : x ∈ l := by
  cases l with
  | nil => simp at h
  | cons a l =>
    simp only [List.head?_cons, Option.some.injEq] at h
    simp [← h]

theorem rep_unfree {H : Heap} {L F1 F2 : List Nat} {b : Nat}
    (h : Rep H L (F1 ++ b :: F2)) :
    Rep (unfree H b) L (F1 ++ F2) ∧
    (∀ j, ((unfree H b).blk j).next = (H.blk j).next) ∧
    (∀ j, j ≠ b → ((unfree H b).blk j).prev = (H.blk j).prev) ∧
    is_free ((unfree H b).blk b) = false := by
  have hbF : b ∈ F1 ++ b :: F2 := by simp
  have hbLf := (h.fmem b).mp hbF
  have hb0 : 0 < b := (rep_bounds h b hbLf.1).1
  have hbs : b < H.block_count - 1 := (rep_bounds h b hbLf.1).2
  have hnd := h.fnodup
  rw [List.nodup_append, List.nodup_cons] at hnd
  obtain ⟨hF1nd, ⟨hbF2, hF2nd⟩, hdisj⟩ := hnd
  have hbF1 : b ∉ F1 := fun hx => hdisj hx (by simp)
  have hpos : ∀ x ∈ F1 ++ b :: F2, 0 < x := fun x hx => (rep_fsub h x hx).1
  -- the cyclic free chain, split at b
  have hfc : List.Chain' (freeStep H) ((0 :: F1) ++ b :: (F2 ++ [0])) := by
    have hh := h.fchain
    have he : (0 :: ((F1 ++ b :: F2) ++ [0])) = ((0 :: F1) ++ b :: (F2 ++ [0])) := by
      simp
    rw [he] at hh
    exact hh
  obtain ⟨hfcA, hfcB⟩ := List.chain'_split.mp hfc
  obtain ⟨pf, hpf⟩ : ∃ x, (0 :: F1).getLast? = some x :=
    ⟨_, List.getLast?_eq_getLast _ (by simp)⟩
  obtain ⟨nf, hnf⟩ : ∃ y, (F2 ++ [0]).head? = some y := by
    cases F2 <;> simp
  have hstep_pf : freeStep H pf b := chain'_last hfcA hpf
  have hstep_nf : freeStep H b nf := chain'_head hfcB hnf
  have hpf_eq : (H.blk b).prev_free = pf := hstep_pf.2
  have hnf_eq : (H.blk b).next_free = nf := hstep_nf.1
  have hpf_mem : pf ∈ 0 :: F1 := mem_of_getLast?_local hpf
  have hnf_mem : nf ∈ F2 ++ [0] := mem_of_head?_local hnf
  have hpb : pf ≠ b := by
    rcases List.mem_cons.mp hpf_mem with rfl | hx
    · omega
    · intro he; exact hbF1 (he ▸ hx)
  have hnb : nf ≠ b := by
    rcases List.mem_append.mp hnf_mem with hx | hx
    · intro he; exact hbF2 (he ▸ hx)
    · simp only [List.mem_singleton] at hx
      subst hx; omega
  obtain ⟨sb, sother, salias, snalias, smem, scnt⟩ :=
    unfree_spec H b (by rw [hpf_eq]; exact hpb) (by rw [hnf_eq]; exact hnb)
  rw [hpf_eq, hnf_eq] at sother salias snalias
  -- field-level facts about K := unfree H b
  have hKnext : ∀ j, ((unfree H b).blk j).next = (H.blk j).next := by
    intro j
    by_cases hjb : j = b
    · rw [hjb, sb, set_free_next]
    · by_cases hjp : j = pf
      · rw [hjp]
        by_cases hpn : pf = nf
        · rw [salias hpn]
        · rw [(snalias hpn).1]
      · by_cases hjn : j = nf
        · rw [hjn, (snalias (fun he => hjp (hjn.trans he.symm))).2]
        · rw [sother j hjb hjp hjn]
  have hKprev : ∀ j, j ≠ b → ((unfree H b).blk j).prev = (H.blk j).prev := by
    intro j hjb
    by_cases hjp : j = pf
    · rw [hjp]
      by_cases hpn : pf = nf
      · rw [salias hpn]
      · rw [(snalias hpn).1]
    · by_cases hjn : j = nf
      · rw [hjn, (snalias (fun he => hjp (hjn.trans he.symm))).2]
      · rw [sother j hjb hjp hjn]
  have hKnf : ∀ j, j ≠ pf → ((unfree H b).blk j).next_free = (H.blk j).next_free := by
    intro j hjp
    by_cases hjb : j = b
    · rw [hjb, sb, set_free_next_free]
    · by_cases hjn : j = nf
      · rw [hjn, (snalias (fun he => hjp (hjn.trans he.symm))).2]
      · rw [sother j hjb hjp hjn]
  have hKpf : ∀ j, j ≠ nf → ((unfree H b).blk j).prev_free = (H.blk j).prev_free := by
    intro j hjn
    by_cases hjb : j = b
    · rw [hjb, sb, set_free_prev_free]
    · by_cases hjp : j = pf
      · rw [hjp, (snalias (fun he => hjn (hjp.trans he))).1]
      · rw [sother j hjb hjp hjn]
  have hKlink1 : ((unfree H b).blk pf).next_free = nf := by
    by_cases hpn : pf = nf
    · rw [salias hpn]
    · rw [(snalias hpn).1]
  have hKlink2 : ((unfree H b).blk nf).prev_free = pf := by
    by_cases hpn : pf = nf
    · rw [← hpn, salias hpn]
    · rw [(snalias hpn).2]
  have hKflagb : is_free ((unfree H b).blk b) = false := by
    rw [sb]; exact is_free_set_free_false _
  have hKflag : ∀ j, j ≠ b → is_free ((unfree H b).blk j) = is_free (H.blk j) :=
    fun j hj => is_free_congr (hKprev j hj)
  -- the Rep of the new state
  refine ⟨⟨?_, ?_, h.head1, ?_, ?_, ?_, ?_, ?_, ?_, ?_⟩, hKnext, hKprev, hKflagb⟩
  · rw [scnt]; exact h.hn4
  · rw [scnt]; exact h.hn15
  · rw [scnt]
    refine chain'_transfer_phys h.chain (rep_mem_lt h) (fun x _ => hKnext x) ?_ ?_
    · intro x _ hx
      by_cases hxb : x = b
      · rw [hxb, hKflagb] at hx; exact absurd hx (by simp)
      · rw [← hKflag x hxb]; exact hx
    · intro x _
      by_cases hxb : x = b
      · subst hxb
        right
        rw [sb, set_free_false_prev]
      · left; exact hKprev x hxb
  · rw [hKprev 0 (by omega), h.prev0]
  · rw [scnt, hKnext, h.nextS]
  · rw [scnt, hKflag _ (by omega), h.flagS]
  · -- the free chain after removal
    have he : (0 : Nat) :: ((F1 ++ F2) ++ [0]) = (0 :: F1) ++ (F2 ++ [0]) := by simp
    rw [he]
    have hchA : List.Chain' (freeStep H) (0 :: F1) := (List.chain'_append.mp hfcA).1
    have hchB : List.Chain' (freeStep H) (F2 ++ [0]) := (List.chain'_cons'.mp hfcB).2
    have hndA : (0 :: F1).Nodup := by
      rw [List.nodup_cons]
      exact ⟨fun hx => absurd (hpos 0 (List.mem_append_left _ hx)) (by omega), hF1nd⟩
    have hndB : (F2 ++ [0]).Nodup := by
      rw [List.nodup_append]
      refine ⟨hF2nd, by simp, ?_⟩
      intro x hx hx0
      simp only [List.mem_singleton] at hx0
      subst hx0
      exact absurd (hpos 0 (List.mem_append_right _ (by simp [hx]))) (by omega)
    refine chain'_append_of ?_ ?_ ?_
    · refine chain'_transfer_free hchA ?_ ?_
      · intro x hx
        exact hKnf x (ne_getLast_of_mem_dropLast hndA hx hpf)
      · intro x hx
        refine hKpf x ?_
        simp only [List.tail_cons] at hx
        rcases List.mem_append.mp hnf_mem with hn2 | hn2
        · intro he2
          exact hdisj (he2 ▸ hx) (by simp [hn2])
        · simp only [List.mem_singleton] at hn2
          subst hn2
          intro he2
          exact absurd (hpos x (List.mem_append_left _ hx)) (by omega)
    · refine chain'_transfer_free hchB ?_ ?_
      · intro x hx
        rw [List.dropLast_concat] at hx
        refine hKnf x ?_
        rcases List.mem_cons.mp hpf_mem with rfl | hp2
        · intro he2
          exact absurd (hpos x (List.mem_append_right _ (by simp [hx]))) (by omega)
        · intro he2
          exact hdisj (he2 ▸ hp2) (by simp [hx])
      · intro x hx
        exact hKpf x (ne_head_of_mem_tail hndB hx hnf)
    · intro x hx y hy
      rw [hpf] at hx
      rw [hnf] at hy
      obtain rfl : x = pf := by injection hx with hx; exact hx.symm
      obtain rfl : y = nf := by injection hy with hy; exact hy.symm
      exact ⟨hKlink1, hKlink2⟩
  · rw [List.nodup_append]
    exact ⟨hF1nd, hF2nd, fun x hx1 hx2 => hdisj hx1 (by simp [hx2])⟩
  · intro i
    by_cases hib : i = b
    · subst hib
      constructor
      · intro hi
        rcases List.mem_append.mp hi with hx | hx
        · exact absurd hx hbF1
        · exact absurd hx hbF2
      · intro ⟨_, hfl⟩
        rw [hKflagb] at hfl
        exact absurd hfl (by simp)
    · rw [hKflag i hib]
      constructor
      · intro hi
        refine (h.fmem i).mp ?_
        rcases List.mem_append.mp hi with hx | hx
        · exact List.mem_append_left _ hx
        · exact List.mem_append_right _ (by simp [hx])
      · intro hi
        have := (h.fmem i).mpr hi
        rcases List.mem_append.mp this with hx | hx
        · exact List.mem_append_left _ hx
        · rcases List.mem_cons.mp hx with rfl | hx
          · exact absurd rfl hib
          · exact List.mem_append_right _ hx


/-! ### Invariant preservation: join -/

theorem rep_join {H : Heap} {L1 L2 F : List Nat} {a b : Nat}
    (h : Rep H (L1 ++ a :: b :: L2) F)
    (hfb : is_free (H.blk b) = false)
    (hfc : is_free (H.blk ((H.blk b).next)) = false) :
    Rep (join H a b) (L1 ++ a :: L2) F ∧
    (∀ j, j ≠ a → ((join H a b).blk j).next = (H.blk j).next) ∧
    (∀ j, is_free ((join H a b).blk j) = is_free (H.blk j)) ∧
    (∀ j, ((join H a b).blk j).next_free = (H.blk j).next_free ∧
          ((join H a b).blk j).prev_free = (H.blk j).prev_free) ∧
    ((join H a b).blk a).next = (H.blk b).next ∧
    (∀ j, j ≠ (H.blk b).next → ((join H a b).blk j).prev = (H.blk j).prev) := by
  have hmema : a ∈ L1 ++ a :: b :: L2 := by simp
  have hmemb : b ∈ L1 ++ a :: b :: L2 := by simp
  have ha0 : 0 < a := (rep_bounds h a hmema).1
  have has : a < H.block_count - 1 := (rep_bounds h a hmema).2
  have hb0 : 0 < b := (rep_bounds h b hmemb).1
  have hbs : b < H.block_count - 1 := (rep_bounds h b hmemb).2
  -- normalize the physical chain
  have hch : List.Chain' (physStep H)
      ((0 :: L1) ++ a :: b :: (L2 ++ [H.block_count - 1])) := by
    have hh := h.chain
    have he : (0 :: ((L1 ++ a :: b :: L2) ++ [H.block_count - 1])) =
        ((0 :: L1) ++ a :: b :: (L2 ++ [H.block_count - 1])) := by simp
    rw [he] at hh
    exact hh
  obtain ⟨hchX, hchT⟩ := List.chain'_split.mp hch
  rw [List.chain'_cons] at hchT
  obtain ⟨hab, hchBY⟩ := hchT
  obtain ⟨c, hc⟩ : ∃ y, (L2 ++ [H.block_count - 1]).head? = some y := by
    cases L2 <;> simp
  have hbc : physStep H b c := chain'_head hchBY hc
  have hc_eq : (H.blk b).next = c := hbc.2.1
  have hc_pos : 0 < c := Nat.lt_trans hb0 hbc.1
  obtain ⟨Y2, hY2⟩ : ∃ Y2, L2 ++ [H.block_count - 1] = c :: Y2 := by
    cases hL2 : L2 with
    | nil => rw [hL2] at hc; simp at hc; exact ⟨[], by simp [hc]⟩
    | cons y Y2 =>
      rw [hL2] at hc
      simp only [List.cons_append, List.head?_cons, Option.some.injEq] at hc
      exact ⟨Y2 ++ [H.block_count - 1], by simp [hc]⟩
  -- nodup decomposition of the whole chain list
  have hnd : ((0 :: L1) ++ a :: b :: (L2 ++ [H.block_count - 1])).Nodup := by
    have hp := rep_lt_chain h
    have he : (0 :: ((L1 ++ a :: b :: L2) ++ [H.block_count - 1])) =
        ((0 :: L1) ++ a :: b :: (L2 ++ [H.block_count - 1])) := by simp
    rw [he] at hp
    exact hp.imp Nat.ne_of_lt
  have hXdisj := (List.nodup_append.mp hnd).2.2
  have habY := (List.nodup_append.mp hnd).2.1
  have haBY : a ∉ b :: (L2 ++ [H.block_count - 1]) := (List.nodup_cons.mp habY).1
  have hbY : b ∉ L2 ++ [H.block_count - 1] :=
    (List.nodup_cons.mp (List.nodup_cons.mp habY).2).1
  have hYnd : (L2 ++ [H.block_count - 1]).Nodup :=
    (List.nodup_cons.mp (List.nodup_cons.mp habY).2).2
  have hanX : a ∉ (0 :: L1) := fun hx => hXdisj hx (by simp)
  have hbnX : b ∉ (0 :: L1) := fun hx => hXdisj hx (by simp)
  have hcY : c ∈ L2 ++ [H.block_count - 1] := by rw [hY2]; simp
  have hcnX : c ∉ (0 :: L1) := fun hx => hXdisj hx (by simp [hcY])
  have hac : a ≠ c := fun he => haBY (by simp [he, hcY])
  have hbc_ne : b ≠ c := fun he => hbY (he ▸ hcY)
  have hab_ne : a ≠ b := fun he => haBY (by simp [he])
  have hanY : a ∉ L2 ++ [H.block_count - 1] := fun hx => haBY (by simp [hx])
  -- effect of the join
  rw [hc_eq] at hfc
  obtain ⟨ea, ec, eother, emem, ecnt⟩ := join_spec H a b hab_ne (hc_eq ▸ hac)
  rw [hc_eq] at ea ec eother
  have hprev_b : (H.blk b).prev &&& free_mask = a := by
    refine prev_and_mask ?_ hab.2.2.1
    exact Nat.lt_trans has (rep_s_lt h)
  rw [hprev_b] at ec
  have hKnext : ∀ j, j ≠ a → ((join H a b).blk j).next = (H.blk j).next := by
    intro j hja
    by_cases hjc : j = c
    · rw [hjc, ec]
    · rw [eother j hja hjc]
  have hKprev : ∀ j, j ≠ c → ((join H a b).blk j).prev = (H.blk j).prev := by
    intro j hjc
    by_cases hja : j = a
    · rw [hja, ea]
    · rw [eother j hja hjc]
  have hKprevc : ((join H a b).blk c).prev = a := by rw [ec]
  have hKflag : ∀ j, is_free ((join H a b).blk j) = is_free (H.blk j) := by
    intro j
    by_cases hjc : j = c
    · rw [hjc]
      have h1 : is_free ((join H a b).blk c) = false :=
        is_free_low (by rw [hKprevc]; exact Nat.lt_trans has (rep_s_lt h))
      rw [h1, hfc]
    · exact is_free_congr (hKprev j hjc)
  have hKfree : ∀ j, ((join H a b).blk j).next_free = (H.blk j).next_free ∧
      ((join H a b).blk j).prev_free = (H.blk j).prev_free := by
    intro j
    by_cases hja : j = a
    · rw [hja, ea]; exact ⟨rfl, rfl⟩
    · by_cases hjc : j = c
      · rw [hjc, ec]; exact ⟨rfl, rfl⟩
      · rw [eother j hja hjc]; exact ⟨rfl, rfl⟩
  have hKnexta : ((join H a b).blk a).next = (H.blk b).next := by
    rw [ea, hc_eq]
  have hKprev2 : ∀ j, j ≠ (H.blk b).next → ((join H a b).blk j).prev = (H.blk j).prev := by
    intro j hj
    exact hKprev j (fun he => hj (he.trans hc_eq.symm))
  refine ⟨⟨?_, ?_, ?_, ?_, ?_, ?_, ?_, ?_, h.fnodup, ?_⟩, hKnext, hKflag, hKfree, hKnexta,
    hKprev2⟩
  · rw [ecnt]; exact h.hn4
  · rw [ecnt]; exact h.hn15
  · have h1 := h.head1
    cases L1 with
    | nil => simpa using h1
    | cons x L1 => simpa using h1
  · -- the new physical chain
    rw [ecnt]
    have he : (0 :: ((L1 ++ a :: L2) ++ [H.block_count - 1])) =
        ((0 :: L1) ++ a :: (L2 ++ [H.block_count - 1])) := by simp
    rw [he]
    refine List.chain'_split.mpr ⟨?_, ?_⟩
    · -- prefix X ++ [a]
      refine chain'_transfer_phys hchX ?_ ?_ ?_ ?_
      · intro x hx
        refine rep_mem_lt h x ?_
        simp only [List.mem_append, List.mem_cons, List.mem_singleton] at hx ⊢
        tauto
      · intro x hx
        rw [List.dropLast_concat] at hx
        refine hKnext x ?_
        intro he2
        exact hanX (he2 ▸ hx)
      · intro x _ hfx
        rw [hKflag x] at hfx
        exact hfx
      · intro x hx
        left
        refine hKprev x ?_
        intro he2
        subst he2
        have hx2 : x ∈ (0 :: L1) ++ [a] := List.mem_of_mem_tail hx
        rcases List.mem_append.mp hx2 with hx2 | hx2
        · exact hcnX hx2
        · simp only [List.mem_singleton] at hx2
          exact hac hx2.symm
    · -- suffix a :: Y with b removed
      rw [hY2]
      refine List.chain'_cons.mpr ⟨?_, ?_⟩
      · refine ⟨Nat.lt_trans hab.1 (hc_eq ▸ hbc.1), hKnexta.trans hc_eq, ?_, ?_⟩
        · left; exact hKprevc
        · intro hcon
          rw [hKflag c] at hcon
          exact absurd hcon.2 (by simp [hfc])
      · -- chain on c :: Y2 transfers
        have hchCY : List.Chain' (physStep H) (c :: Y2) := by
          rw [← hY2]
          exact (List.chain'_cons'.mp hchBY).2
        refine chain'_transfer_phys hchCY ?_ ?_ ?_ ?_
        · intro x hx
          refine rep_mem_lt h x ?_
          have : x ∈ L2 ++ [H.block_count - 1] := by rw [hY2]; exact hx
          simp only [List.mem_append, List.mem_cons, List.mem_singleton] at this ⊢
          tauto
        · intro x hx
          refine hKnext x ?_
          intro he2
          subst he2
          exact hanY (by rw [hY2]; exact List.mem_of_mem_dropLast hx)
        · intro x _ hfx
          rw [hKflag x] at hfx
          exact hfx
        · intro x hx
          left
          refine hKprev x ?_
          have hndY : (c :: Y2).Nodup := by rw [← hY2]; exact hYnd
          exact ne_head_of_mem_tail hndY hx (by simp)
  · rw [hKprev 0 (fun he => by omega), h.prev0]
  · rw [ecnt, hKnext _ (fun he => by rw [he] at has; omega), h.nextS]
  · rw [ecnt, hKflag, h.flagS]
  · refine chain'_transfer_free h.fchain ?_ ?_
    · intro x _; exact (hKfree x).1
    · intro x _; exact (hKfree x).2
  · intro i
    rw [hKflag i]
    have hold := h.fmem i
    constructor
    · intro hiF
      obtain ⟨hiL, hifl⟩ := hold.mp hiF
      have hib : i ≠ b := fun he => by
        rw [he, hfb] at hifl
        exact absurd hifl (by simp)
      refine ⟨?_, hifl⟩
      simp only [List.mem_append, List.mem_cons] at hiL ⊢
      tauto
    · rintro ⟨hiL, hifl⟩
      refine hold.mpr ⟨?_, hifl⟩
      simp only [List.mem_append, List.mem_cons] at hiL ⊢
      tauto


/-! ### Invariant preservation: the splits -/

theorem and_bit_zero {x : Nat} (hx : x < 2 ^ 15) : x &&& free_bit = 0 := by
  rw [free_bit_eq, Nat.and_two_pow, Nat.testBit_lt_two_pow hx]
  simp

theorem add_bit_and_bit {x : Nat} (hx : x < 2 ^ 15) : (x + free_bit) &&& free_bit = free_bit := by
  rw [free_bit_eq, Nat.and_two_pow, Nat.add_comm, Nat.testBit_two_pow_add_eq,
    Nat.testBit_lt_two_pow hx]
  simp

theorem flag_part_cases (b : Block) :
    b.prev &&& free_bit = 0 ∨ b.prev &&& free_bit = free_bit := by
  rw [free_bit_eq, Nat.and_two_pow]
  cases b.prev.testBit 15 <;> simp [free_bit_eq]

theorem is_free_or_keep (b : Block) {x : Nat} (hx : x < 2 ^ 15) :
    is_free { b with prev := x ||| (b.prev &&& free_bit) } = is_free b := by
  unfold is_free
  rcases flag_part_cases b with hc | hc <;> rw [hc]
  · simp only [Nat.or_zero]
    rw [and_bit_zero hx]
  · rw [or_bit_eq_add hx, add_bit_and_bit hx]

theorem or_flag_split (b : Block) {x : Nat} (hx : x < 2 ^ 15) :
    x ||| (b.prev &&& free_bit) = x ∨ x ||| (b.prev &&& free_bit) = x + free_bit := by
  rcases flag_part_cases b with hc | hc <;> rw [hc]
  · simp
  · exact Or.inr (or_bit_eq_add hx)

theorem rep_split_tail {H : Heap} {L1 L2 F : List Nat} {b k : Nat}
    (h : Rep H (L1 ++ b :: L2) F) (hk1 : 1 ≤ k) (hks : k < size_in_blocks H b) :
    Rep (split_tail H b k).1 (L1 ++ b :: ((H.blk b).next - k) :: L2) F ∧
    (split_tail H b k).2 = (H.blk b).next - k ∧
    size_in_blocks (split_tail H b k).1 ((H.blk b).next - k) = k ∧
    size_in_blocks (split_tail H b k).1 b = size_in_blocks H b - k ∧
    is_free ((split_tail H b k).1.blk ((H.blk b).next - k)) = false ∧
    (∀ j, j ≠ (H.blk b).next - k →
      is_free ((split_tail H b k).1.blk j) = is_free (H.blk j)) ∧
    (∀ j, ((split_tail H b k).1.blk j).next_free = (H.blk j).next_free ∧
          ((split_tail H b k).1.blk j).prev_free = (H.blk j).prev_free) := by
  have hmemb : b ∈ L1 ++ b :: L2 := by simp
  have hb0 : 0 < b := (rep_bounds h b hmemb).1
  have hbs : b < H.block_count - 1 := (rep_bounds h b hmemb).2
  have hch : List.Chain' (physStep H)
      ((0 :: L1) ++ b :: (L2 ++ [H.block_count - 1])) := by
    have hh := h.chain
    have he : (0 :: ((L1 ++ b :: L2) ++ [H.block_count - 1])) =
        ((0 :: L1) ++ b :: (L2 ++ [H.block_count - 1])) := by simp
    rw [he] at hh
    exact hh
  obtain ⟨hchX, hchBY⟩ := List.chain'_split.mp hch
  obtain ⟨c, hc⟩ : ∃ y, (L2 ++ [H.block_count - 1]).head? = some y := by
    cases L2 <;> simp
  have hbc : physStep H b c := chain'_head hchBY hc
  have hc_eq : (H.blk b).next = c := hbc.2.1
  have hc_pos : 0 < c := Nat.lt_trans hb0 hbc.1
  rw [hc_eq]
  obtain ⟨Y2, hY2⟩ : ∃ Y2, L2 ++ [H.block_count - 1] = c :: Y2 := by
    cases hL2 : L2 with
    | nil => rw [hL2] at hc; simp at hc; exact ⟨[], by simp [hc]⟩
    | cons y Y2 =>
      rw [hL2] at hc
      simp only [List.cons_append, List.head?_cons, Option.some.injEq] at hc
      exact ⟨Y2 ++ [H.block_count - 1], by simp [hc]⟩
  have hsz : size_in_blocks H b = c - b := by
    unfold size_in_blocks
    rw [hc_eq, if_neg (by omega)]
  have hcs : c ≤ H.block_count - 1 := by
    have := nextSeq_le (H := H) _ _ (nextSeq_of_chain _ b hchBY)
    rw [hc_eq] at this
    exact this
  have hc15 : c < 2 ^ 15 := Nat.lt_of_le_of_lt hcs (rep_s_lt h)
  have hb15 : b < 2 ^ 15 := by omega
  have hb1b : b < c - k := by omega
  have hb1c : c - k < c := by omega
  have hb115 : c - k < 2 ^ 15 := by omega
  -- pairwise facts
  have hpw : List.Pairwise (fun a b => a < b)
      ((0 :: L1) ++ b :: (L2 ++ [H.block_count - 1])) := by
    have hp := rep_lt_chain h
    have he : (0 :: ((L1 ++ b :: L2) ++ [H.block_count - 1])) =
        ((0 :: L1) ++ b :: (L2 ++ [H.block_count - 1])) := by simp
    rw [he] at hp
    exact hp
  rw [List.pairwise_append] at hpw
  have hXlt : ∀ x ∈ 0 :: L1, x < b := fun x hx => hpw.2.2 x hx b (by simp)
  have hYgt : ∀ y ∈ L2 ++ [H.block_count - 1], b < y := by
    have := hpw.2.1
    rw [List.pairwise_cons] at this
    exact this.1
  have hY2gt : ∀ y ∈ Y2, c < y := by
    have := hpw.2.1
    rw [hY2, List.pairwise_cons] at this
    have := this.2
    rw [List.pairwise_cons] at this
    exact this.1
  -- effect description
  obtain ⟨eb, eb1, ec, eother, emem, ecnt, eret⟩ :=
    split_tail_spec H b k (by omega) (by omega) (by rw [hc_eq]; omega)
  rw [hc_eq] at eb eb1 ec eother eret
  have hKnext : ∀ j, j ≠ b → j ≠ c - k → ((split_tail H b k).1.blk j).next = (H.blk j).next := by
    intro j hjb hj1
    by_cases hjc : j = c
    · rw [hjc, ec]
    · rw [eother j hjb hj1 hjc]
  have hKprev : ∀ j, j ≠ c - k → j ≠ c →
      ((split_tail H b k).1.blk j).prev = (H.blk j).prev := by
    intro j hj1 hjc
    by_cases hjb : j = b
    · rw [hjb, eb]
    · rw [eother j hjb hj1 hjc]
  have hKflagb1 : is_free ((split_tail H b k).1.blk (c - k)) = false := by
    rw [eb1]
    exact is_free_low hb15
  have hKflag : ∀ j, j ≠ c - k →
      is_free ((split_tail H b k).1.blk j) = is_free (H.blk j) := by
    intro j hj1
    by_cases hjc : j = c
    · rw [hjc, ec]
      exact is_free_or_keep (H.blk c) hb115
    · exact is_free_congr (hKprev j hj1 hjc)
  have hKfree : ∀ j, ((split_tail H b k).1.blk j).next_free = (H.blk j).next_free ∧
      ((split_tail H b k).1.blk j).prev_free = (H.blk j).prev_free := by
    intro j
    by_cases hjb : j = b
    · rw [hjb, eb]; exact ⟨rfl, rfl⟩
    · by_cases hj1 : j = c - k
      · rw [hj1, eb1]; exact ⟨rfl, rfl⟩
      · by_cases hjc : j = c
        · rw [hjc, ec]; exact ⟨rfl, rfl⟩
        · rw [eother j hjb hj1 hjc]; exact ⟨rfl, rfl⟩
  have hb1nL1 : c - k ∉ 0 :: L1 := fun hx => absurd (hXlt _ hx) (by omega)
  have hb1nY : c - k ∉ L2 ++ [H.block_count - 1] := by
    rw [hY2]
    intro hx
    rcases List.mem_cons.mp hx with he | hx
    · omega
    · exact absurd (hY2gt _ hx) (by omega)
  refine ⟨⟨?_, ?_, ?_, ?_, ?_, ?_, ?_, ?_, h.fnodup, ?_⟩, eret, ?_, ?_, hKflagb1,
    hKflag, hKfree⟩
  · rw [ecnt]; exact h.hn4
  · rw [ecnt]; exact h.hn15
  · have h1 := h.head1
    cases L1 with
    | nil => simpa using h1
    | cons x L1 => simpa using h1
  · rw [ecnt]
    have he : (0 :: ((L1 ++ b :: (c - k) :: L2) ++ [H.block_count - 1])) =
        ((0 :: L1) ++ b :: (c - k) :: (L2 ++ [H.block_count - 1])) := by simp
    rw [he]
    refine List.chain'_split.mpr ⟨?_, ?_⟩
    · refine chain'_transfer_phys hchX ?_ ?_ ?_ ?_
      · intro x hx
        refine rep_mem_lt h x ?_
        simp only [List.mem_append, List.mem_cons, List.mem_singleton] at hx ⊢
        tauto
      · intro x hx
        rw [List.dropLast_concat] at hx
        exact hKnext x (by intro he2; exact absurd (hXlt x (he2 ▸ hx)) (by omega))
          (by intro he2; exact hb1nL1 (he2 ▸ hx))
      · intro x hx hfx
        have hxne : x ≠ c - k := by
          intro he2
          subst he2
          rcases List.mem_append.mp hx with hx | hx
          · exact hb1nL1 hx
          · simp only [List.mem_singleton] at hx
            omega
        rw [← hKflag x hxne]
        exact hfx
      · intro x hx
        left
        have hx2 : x ∈ (0 :: L1) ++ [b] := List.mem_of_mem_tail hx
        refine hKprev x ?_ ?_
        · intro he2
          subst he2
          rcases List.mem_append.mp hx2 with hx2 | hx2
          · exact hb1nL1 hx2
          · simp only [List.mem_singleton] at hx2
            omega
        · intro he2
          subst he2
          rcases List.mem_append.mp hx2 with hx2 | hx2
          · exact absurd (hXlt _ hx2) (by omega)
          · simp only [List.mem_singleton] at hx2
            omega
    · rw [hY2]
      refine List.chain'_cons.mpr ⟨?_, List.chain'_cons.mpr ⟨?_, ?_⟩⟩
      · refine ⟨hb1b, by rw [eb], Or.inl (by rw [eb1]), ?_⟩
        intro hcon
        rw [hKflagb1] at hcon
        exact absurd hcon.2 (by simp)
      · refine ⟨hb1c, by rw [eb1], ?_, ?_⟩
        · rw [ec]
          simp only
          exact or_flag_split (H.blk c) hb115
        · intro hcon
          rw [hKflagb1] at hcon
          exact absurd hcon.1 (by simp)
      · have hchCY : List.Chain' (physStep H) (c :: Y2) := by
          rw [← hY2]
          exact (List.chain'_cons'.mp hchBY).2
        refine chain'_transfer_phys hchCY ?_ ?_ ?_ ?_
        · intro x hx
          refine rep_mem_lt h x ?_
          have : x ∈ L2 ++ [H.block_count - 1] := by rw [hY2]; exact hx
          simp only [List.mem_append, List.mem_cons, List.mem_singleton] at this ⊢
          tauto
        · intro x hx
          have hxY : x ∈ L2 ++ [H.block_count - 1] := by
            rw [hY2]; exact List.mem_of_mem_dropLast hx
          exact hKnext x (by intro he2; exact absurd (hYgt x hxY) (by omega))
            (by intro he2; exact hb1nY (he2 ▸ hxY))
        · intro x hx hfx
          have hxY : x ∈ L2 ++ [H.block_count - 1] := by rw [hY2]; exact hx
          rw [← hKflag x (by intro he2; exact hb1nY (he2 ▸ hxY))]
          exact hfx
        · intro x hx
          left
          have hxY2 : x ∈ Y2 := hx
          refine hKprev x ?_ ?_
          · intro he2
            exact absurd (hY2gt x hxY2) (by omega)
          · intro he2
            exact absurd (hY2gt x hxY2) (by omega)
  · rw [hKprev 0 (by omega) (by omega), h.prev0]
  · rw [ecnt, hKnext _ (by omega) (by omega), h.nextS]
  · rw [ecnt, hKflag _ (by omega), h.flagS]
  · refine chain'_transfer_free h.fchain ?_ ?_
    · intro x _; exact (hKfree x).1
    · intro x _; exact (hKfree x).2
  · intro i
    by_cases hi1 : i = c - k
    · subst hi1
      constructor
      · intro hiF
        have := ((h.fmem _).mp hiF).1
        rcases List.mem_append.mp this with hx | hx
        · exact absurd hx (fun hx2 => hb1nL1 (by simp [hx2]))
        · rcases List.mem_cons.mp hx with he | hx
          · omega
          · exact absurd hx (fun hx2 => hb1nY (List.mem_append_left _ hx2))
      · intro ⟨_, hfl⟩
        rw [hKflagb1] at hfl
        exact absurd hfl (by simp)
    · rw [hKflag i hi1]
      rw [h.fmem i]
      constructor
      · rintro ⟨hiL, hifl⟩
        refine ⟨?_, hifl⟩
        simp only [List.mem_append, List.mem_cons] at hiL ⊢
        tauto
      · rintro ⟨hiL, hifl⟩
        refine ⟨?_, hifl⟩
        simp only [List.mem_append, List.mem_cons] at hiL ⊢
        rcases hiL with hx | hx | hx | hx
        · tauto
        · tauto
        · exact absurd hx hi1
        · tauto
  · have eb1n : ((split_tail H b k).1.blk (c - k)).next = c := by rw [eb1]
    unfold size_in_blocks
    rw [eb1n, if_neg (by omega)]
    omega
  · have ebn : ((split_tail H b k).1.blk b).next = c - k := by rw [eb]
    rw [hsz]
    unfold size_in_blocks
    rw [ebn, if_neg (by omega)]
    omega

theorem rep_split_head {H : Heap} {L1 L2 F : List Nat} {b k : Nat}
    (h : Rep H (L1 ++ b :: L2) F) (hk1 : 1 ≤ k) (hks : k < size_in_blocks H b) :
    Rep (split_head H b k).1 (L1 ++ b :: (b + k) :: L2) F ∧
    (split_head H b k).2 = b + k ∧
    size_in_blocks (split_head H b k).1 (b + k) = size_in_blocks H b - k ∧
    size_in_blocks (split_head H b k).1 b = k ∧
    is_free ((split_head H b k).1.blk (b + k)) = false ∧
    (∀ j, j ≠ b + k →
      is_free ((split_head H b k).1.blk j) = is_free (H.blk j)) ∧
    (∀ j, ((split_head H b k).1.blk j).next_free = (H.blk j).next_free ∧
          ((split_head H b k).1.blk j).prev_free = (H.blk j).prev_free) := by
  have hmemb : b ∈ L1 ++ b :: L2 := by simp
  have hb0 : 0 < b := (rep_bounds h b hmemb).1
  have hbs : b < H.block_count - 1 := (rep_bounds h b hmemb).2
  have hch : List.Chain' (physStep H)
      ((0 :: L1) ++ b :: (L2 ++ [H.block_count - 1])) := by
    have hh := h.chain
    have he : (0 :: ((L1 ++ b :: L2) ++ [H.block_count - 1])) =
        ((0 :: L1) ++ b :: (L2 ++ [H.block_count - 1])) := by simp
    rw [he] at hh
    exact hh
  obtain ⟨hchX, hchBY⟩ := List.chain'_split.mp hch
  obtain ⟨c, hc⟩ : ∃ y, (L2 ++ [H.block_count - 1]).head? = some y := by
    cases L2 <;> simp
  have hbc : physStep H b c := chain'_head hchBY hc
  have hc_eq : (H.blk b).next = c := hbc.2.1
  have hc_pos : 0 < c := Nat.lt_trans hb0 hbc.1
  obtain ⟨Y2, hY2⟩ : ∃ Y2, L2 ++ [H.block_count - 1] = c :: Y2 := by
    cases hL2 : L2 with
    | nil => rw [hL2] at hc; simp at hc; exact ⟨[], by simp [hc]⟩
    | cons y Y2 =>
      rw [hL2] at hc
      simp only [List.cons_append, List.head?_cons, Option.some.injEq] at hc
      exact ⟨Y2 ++ [H.block_count - 1], by simp [hc]⟩
  have hsz : size_in_blocks H b = c - b := by
    unfold size_in_blocks
    rw [hc_eq, if_neg (by omega)]
  have hcs : c ≤ H.block_count - 1 := by
    have := nextSeq_le (H := H) _ _ (nextSeq_of_chain _ b hchBY)
    rw [hc_eq] at this
    exact this
  have hc15 : c < 2 ^ 15 := Nat.lt_of_le_of_lt hcs (rep_s_lt h)
  have hb15 : b < 2 ^ 15 := by omega
  have hb1b : b < b + k := by omega
  have hb1c : b + k < c := by omega
  have hb115 : b + k < 2 ^ 15 := by omega
  -- pairwise facts
  have hpw : List.Pairwise (fun a b => a < b)
      ((0 :: L1) ++ b :: (L2 ++ [H.block_count - 1])) := by
    have hp := rep_lt_chain h
    have he : (0 :: ((L1 ++ b :: L2) ++ [H.block_count - 1])) =
        ((0 :: L1) ++ b :: (L2 ++ [H.block_count - 1])) := by simp
    rw [he] at hp
    exact hp
  rw [List.pairwise_append] at hpw
  have hXlt : ∀ x ∈ 0 :: L1, x < b := fun x hx => hpw.2.2 x hx b (by simp)
  have hYgt : ∀ y ∈ L2 ++ [H.block_count - 1], b < y := by
    have := hpw.2.1
    rw [List.pairwise_cons] at this
    exact this.1
  have hY2gt : ∀ y ∈ Y2, c < y := by
    have := hpw.2.1
    rw [hY2, List.pairwise_cons] at this
    have := this.2
    rw [List.pairwise_cons] at this
    exact this.1
  -- effect description
  obtain ⟨eb, eb1, ec, eother, emem, ecnt, eret⟩ :=
    split_head_spec H b k (by omega) (by omega) (by rw [hc_eq]; omega)
  rw [hc_eq] at eb1 ec eother
  have hKnext : ∀ j, j ≠ b → j ≠ b + k → ((split_head H b k).1.blk j).next = (H.blk j).next := by
    intro j hjb hj1
    by_cases hjc : j = c
    · rw [hjc, ec]
    · rw [eother j hjb hj1 hjc]
  have hKprev : ∀ j, j ≠ b + k → j ≠ c →
      ((split_head H b k).1.blk j).prev = (H.blk j).prev := by
    intro j hj1 hjc
    by_cases hjb : j = b
    · rw [hjb, eb]
    · rw [eother j hjb hj1 hjc]
  have hKflagb1 : is_free ((split_head H b k).1.blk (b + k)) = false := by
    rw [eb1]
    exact is_free_low hb15
  have hKflag : ∀ j, j ≠ b + k →
      is_free ((split_head H b k).1.blk j) = is_free (H.blk j) := by
    intro j hj1
    by_cases hjc : j = c
    · rw [hjc, ec]
      exact is_free_or_keep (H.blk c) hb115
    · exact is_free_congr (hKprev j hj1 hjc)
  have hKfree : ∀ j, ((split_head H b k).1.blk j).next_free = (H.blk j).next_free ∧
      ((split_head H b k).1.blk j).prev_free = (H.blk j).prev_free := by
    intro j
    by_cases hjb : j = b
    · rw [hjb, eb]; exact ⟨rfl, rfl⟩
    · by_cases hj1 : j = b + k
      · rw [hj1, eb1]; exact ⟨rfl, rfl⟩
      · by_cases hjc : j = c
        · rw [hjc, ec]; exact ⟨rfl, rfl⟩
        · rw [eother j hjb hj1 hjc]; exact ⟨rfl, rfl⟩
  have hb1nL1 : b + k ∉ 0 :: L1 := fun hx => absurd (hXlt _ hx) (by omega)
  have hb1nY : b + k ∉ L2 ++ [H.block_count - 1] := by
    rw [hY2]
    intro hx
    rcases List.mem_cons.mp hx with he | hx
    · omega
    · exact absurd (hY2gt _ hx) (by omega)
  refine ⟨⟨?_, ?_, ?_, ?_, ?_, ?_, ?_, ?_, h.fnodup, ?_⟩, eret, ?_, ?_, hKflagb1,
    hKflag, hKfree⟩
  · rw [ecnt]; exact h.hn4
  · rw [ecnt]; exact h.hn15
  · have h1 := h.head1
    cases L1 with
    | nil => simpa using h1
    | cons x L1 => simpa using h1
  · rw [ecnt]
    have he : (0 :: ((L1 ++ b :: (b + k) :: L2) ++ [H.block_count - 1])) =
        ((0 :: L1) ++ b :: (b + k) :: (L2 ++ [H.block_count - 1])) := by simp
    rw [he]
    refine List.chain'_split.mpr ⟨?_, ?_⟩
    · refine chain'_transfer_phys hchX ?_ ?_ ?_ ?_
      · intro x hx
        refine rep_mem_lt h x ?_
        simp only [List.mem_append, List.mem_cons, List.mem_singleton] at hx ⊢
        tauto
      · intro x hx
        rw [List.dropLast_concat] at hx
        exact hKnext x (by intro he2; exact absurd (hXlt x (he2 ▸ hx)) (by omega))
          (by intro he2; exact hb1nL1 (he2 ▸ hx))
      · intro x hx hfx
        have hxne : x ≠ b + k := by
          intro he2
          subst he2
          rcases List.mem_append.mp hx with hx | hx
          · exact hb1nL1 hx
          · simp only [List.mem_singleton] at hx
            omega
        rw [← hKflag x hxne]
        exact hfx
      · intro x hx
        left
        have hx2 : x ∈ (0 :: L1) ++ [b] := List.mem_of_mem_tail hx
        refine hKprev x ?_ ?_
        · intro he2
          subst he2
          rcases List.mem_append.mp hx2 with hx2 | hx2
          · exact hb1nL1 hx2
          · simp only [List.mem_singleton] at hx2
            omega
        · intro he2
          subst he2
          rcases List.mem_append.mp hx2 with hx2 | hx2
          · exact absurd (hXlt _ hx2) (by omega)
          · simp only [List.mem_singleton] at hx2
            omega
    · rw [hY2]
      refine List.chain'_cons.mpr ⟨?_, List.chain'_cons.mpr ⟨?_, ?_⟩⟩
      · refine ⟨hb1b, by rw [eb], Or.inl (by rw [eb1]), ?_⟩
        intro hcon
        rw [hKflagb1] at hcon
        exact absurd hcon.2 (by simp)
      · refine ⟨hb1c, by rw [eb1], ?_, ?_⟩
        · rw [ec]
          simp only
          exact or_flag_split (H.blk c) hb115
        · intro hcon
          rw [hKflagb1] at hcon
          exact absurd hcon.1 (by simp)
      · have hchCY : List.Chain' (physStep H) (c :: Y2) := by
          rw [← hY2]
          exact (List.chain'_cons'.mp hchBY).2
        refine chain'_transfer_phys hchCY ?_ ?_ ?_ ?_
        · intro x hx
          refine rep_mem_lt h x ?_
          have : x ∈ L2 ++ [H.block_count - 1] := by rw [hY2]; exact hx
          simp only [List.mem_append, List.mem_cons, List.mem_singleton] at this ⊢
          tauto
        · intro x hx
          have hxY : x ∈ L2 ++ [H.block_count - 1] := by
            rw [hY2]; exact List.mem_of_mem_dropLast hx
          exact hKnext x (by intro he2; exact absurd (hYgt x hxY) (by omega))
            (by intro he2; exact hb1nY (he2 ▸ hxY))
        · intro x hx hfx
          have hxY : x ∈ L2 ++ [H.block_count - 1] := by rw [hY2]; exact hx
          rw [← hKflag x (by intro he2; exact hb1nY (he2 ▸ hxY))]
          exact hfx
        · intro x hx
          left
          have hxY2 : x ∈ Y2 := hx
          refine hKprev x ?_ ?_
          · intro he2
            exact absurd (hY2gt x hxY2) (by omega)
          · intro he2
            exact absurd (hY2gt x hxY2) (by omega)
  · rw [hKprev 0 (by omega) (by omega), h.prev0]
  · rw [ecnt, hKnext _ (by omega) (by omega), h.nextS]
  · rw [ecnt, hKflag _ (by omega), h.flagS]
  · refine chain'_transfer_free h.fchain ?_ ?_
    · intro x _; exact (hKfree x).1
    · intro x _; exact (hKfree x).2
  · intro i
    by_cases hi1 : i = b + k
    · subst hi1
      constructor
      · intro hiF
        have := ((h.fmem _).mp hiF).1
        rcases List.mem_append.mp this with hx | hx
        · exact absurd hx (fun hx2 => hb1nL1 (by simp [hx2]))
        · rcases List.mem_cons.mp hx with he | hx
          · omega
          · exact absurd hx (fun hx2 => hb1nY (List.mem_append_left _ hx2))
      · intro ⟨_, hfl⟩
        rw [hKflagb1] at hfl
        exact absurd hfl (by simp)
    · rw [hKflag i hi1]
      rw [h.fmem i]
      constructor
      · rintro ⟨hiL, hifl⟩
        refine ⟨?_, hifl⟩
        simp only [List.mem_append, List.mem_cons] at hiL ⊢
        tauto
      · rintro ⟨hiL, hifl⟩
        refine ⟨?_, hifl⟩
        simp only [List.mem_append, List.mem_cons] at hiL ⊢
        rcases hiL with hx | hx | hx | hx
        · tauto
        · tauto
        · exact absurd hx hi1
        · tauto
  · have eb1n : ((split_head H b k).1.blk (b + k)).next = c := by rw [eb1]
    rw [hsz]
    unfold size_in_blocks
    rw [eb1n, if_neg (by omega)]
    omega
  · have ebn : ((split_head H b k).1.blk b).next = b + k := by rw [eb]
    unfold size_in_blocks
    rw [ebn, if_neg (by omega)]
    omega


/-! ### Invariant preservation: push onto the free list -/

theorem rep_push {H : Heap} {L1 L2 F : List Nat} {b : Nat}
    (h : Rep H (L1 ++ b :: L2) F)
    (hfb : is_free (H.blk b) = false)
    (hfp : is_free (H.blk ((H.blk b).prev &&& free_mask)) = false)
    (hfn : is_free (H.blk ((H.blk b).next)) = false) :
    Rep (push_free H b) (L1 ++ b :: L2) (b :: F) := by
  have hmemb : b ∈ L1 ++ b :: L2 := by simp
  have hb0 : 0 < b := (rep_bounds h b hmemb).1
  have hbs : b < H.block_count - 1 := (rep_bounds h b hmemb).2
  have hb15 : b < 2 ^ 15 := Nat.lt_trans hbs (rep_s_lt h)
  have hbnF : b ∉ F := fun hx => by
    have := ((h.fmem b).mp hx).2
    rw [hfb] at this
    exact absurd this (by simp)
  have hch : List.Chain' (physStep H)
      ((0 :: L1) ++ b :: (L2 ++ [H.block_count - 1])) := by
    have hh := h.chain
    have he : (0 :: ((L1 ++ b :: L2) ++ [H.block_count - 1])) =
        ((0 :: L1) ++ b :: (L2 ++ [H.block_count - 1])) := by simp
    rw [he] at hh
    exact hh
  obtain ⟨hchX, hchBY⟩ := List.chain'_split.mp hch
  have hpw : List.Pairwise (fun a b => a < b)
      ((0 :: L1) ++ b :: (L2 ++ [H.block_count - 1])) := by
    have hp := rep_lt_chain h
    have he : (0 :: ((L1 ++ b :: L2) ++ [H.block_count - 1])) =
        ((0 :: L1) ++ b :: (L2 ++ [H.block_count - 1])) := by simp
    rw [he] at hp
    exact hp
  rw [List.pairwise_append] at hpw
  have hXlt : ∀ x ∈ 0 :: L1, x < b := fun x hx => hpw.2.2 x hx b (by simp)
  have hYgt : ∀ y ∈ L2 ++ [H.block_count - 1], b < y := by
    have := hpw.2.1
    rw [List.pairwise_cons] at this
    exact this.1
  obtain ⟨a, ha⟩ : ∃ x, (0 :: L1).getLast? = some x :=
    ⟨_, List.getLast?_eq_getLast _ (by simp)⟩
  have hab : physStep H a b := chain'_last hchX ha
  have ha15 : a < 2 ^ 15 := by
    have := hab.1
    omega
  have hprev_b : (H.blk b).prev = a := by
    rcases flag_split ha15 hab.2.2.1 with ⟨_, he⟩ | ⟨hfl, _⟩
    · exact he
    · rw [hfl] at hfb
      exact absurd hfb (by simp)
  have hfa : is_free (H.blk a) = false := by
    rw [hprev_b, and_mask_of_lt ha15] at hfp
    exact hfp
  obtain ⟨c, hc⟩ : ∃ y, (L2 ++ [H.block_count - 1]).head? = some y := by
    cases L2 <;> simp
  have hbc : physStep H b c := chain'_head hchBY hc
  have hc_eq : (H.blk b).next = c := hbc.2.1
  have hfc : is_free (H.blk c) = false := by
    rw [hc_eq] at hfn
    exact hfn
  obtain ⟨Y2, hY2⟩ : ∃ Y2, L2 ++ [H.block_count - 1] = c :: Y2 := by
    cases hL2 : L2 with
    | nil => rw [hL2] at hc; simp at hc; exact ⟨[], by simp [hc]⟩
    | cons y Y2 =>
      rw [hL2] at hc
      simp only [List.cons_append, List.head?_cons, Option.some.injEq] at hc
      exact ⟨Y2 ++ [H.block_count - 1], by simp [hc]⟩
  obtain ⟨f1, hf1⟩ : ∃ y, (F ++ [0]).head? = some y := by
    cases F <;> simp
  have h0f1 : freeStep H 0 f1 := chain'_head h.fchain hf1
  have hf1_eq : (H.blk 0).next_free = f1 := h0f1.1
  have hf1_mem : f1 ∈ F ++ [0] := mem_of_head?_local hf1
  have hbf1 : b ≠ f1 := by
    rcases List.mem_append.mp hf1_mem with hx | hx
    · intro he; exact hbnF (he ▸ hx)
    · simp only [List.mem_singleton] at hx
      subst hx; omega
  obtain ⟨sb, sother, salias, snalias, smem, scnt⟩ :=
    push_free_spec H b (by omega) (by rw [hf1_eq]; exact hbf1)
  rw [hf1_eq] at sother salias snalias
  have hKb : (push_free H b).blk b =
      set_free { H.blk b with next_free := f1, prev_free := 0 } true := by
    rw [sb, hf1_eq]
  have hKb_prev : ((push_free H b).blk b).prev = a + free_bit := by
    rw [hKb, set_free_true_eq (by simpa [hprev_b] using ha15)]
    simp [hprev_b]
  have hKb_flag : is_free ((push_free H b).blk b) = true :=
    is_free_high ha15 hKb_prev
  have hKb_next : ((push_free H b).blk b).next = (H.blk b).next := by
    rw [hKb, set_free_next]
  have hKb_nf : ((push_free H b).blk b).next_free = f1 := by
    rw [hKb, set_free_next_free]
  have hKb_pf : ((push_free H b).blk b).prev_free = 0 := by
    rw [hKb, set_free_prev_free]
  have hKphys : ∀ j, j ≠ b →
      ((push_free H b).blk j).prev = (H.blk j).prev ∧
      ((push_free H b).blk j).next = (H.blk j).next := by
    intro j hjb
    by_cases hj0 : j = 0
    · subst hj0
      by_cases hf0 : f1 = 0
      · rw [salias hf0]
        exact ⟨rfl, rfl⟩
      · rw [(snalias hf0).2]
        exact ⟨rfl, rfl⟩
    · by_cases hjf : j = f1
      · subst hjf
        rw [(snalias hj0).1]
        exact ⟨rfl, rfl⟩
      · rw [sother j hjb hj0 hjf]
        exact ⟨rfl, rfl⟩
  have hKflag : ∀ j, j ≠ b → is_free ((push_free H b).blk j) = is_free (H.blk j) :=
    fun j hj => is_free_congr (hKphys j hj).1
  have hK0nf : ((push_free H b).blk 0).next_free = b := by
    by_cases hf0 : f1 = 0
    · rw [salias hf0]
    · rw [(snalias hf0).2]
  have hKf1pf : ((push_free H b).blk f1).prev_free = b := by
    by_cases hf0 : f1 = 0
    · rw [hf0, salias hf0]
    · rw [(snalias hf0).1]
  have hKnf_other : ∀ j, j ≠ b → j ≠ 0 →
      ((push_free H b).blk j).next_free = (H.blk j).next_free := by
    intro j hjb hj0
    by_cases hjf : j = f1
    · subst hjf
      rw [(snalias hj0).1]
    · rw [sother j hjb hj0 hjf]
  have hKpf_other : ∀ j, j ≠ b → j ≠ f1 →
      ((push_free H b).blk j).prev_free = (H.blk j).prev_free := by
    intro j hjb hjf
    by_cases hj0 : j = 0
    · subst hj0
      have hf0 : f1 ≠ 0 := fun he => hjf he.symm
      rw [(snalias hf0).2]
    · rw [sother j hjb hj0 hjf]
  refine ⟨?_, ?_, h.head1, ?_, ?_, ?_, ?_, ?_, ?_, ?_⟩
  · rw [scnt]; exact h.hn4
  · rw [scnt]; exact h.hn15
  · rw [scnt]
    have he : (0 :: ((L1 ++ b :: L2) ++ [H.block_count - 1])) =
        ((0 :: L1) ++ b :: (L2 ++ [H.block_count - 1])) := by simp
    rw [he]
    refine List.chain'_split.mpr ⟨?_, ?_⟩
    · refine chain'_append_of ?_ (List.chain'_singleton b) ?_
      · refine chain'_transfer_phys (List.chain'_append.mp hchX).1 ?_ ?_ ?_ ?_
        · intro x hx
          refine rep_mem_lt h x ?_
          simp only [List.mem_append, List.mem_cons, List.mem_singleton] at hx ⊢
          tauto
        · intro x hx
          exact (hKphys x (Nat.ne_of_lt (hXlt x (List.mem_of_mem_dropLast hx)))).2
        · intro x hx hfx
          rw [hKflag x (Nat.ne_of_lt (hXlt x hx))] at hfx
          exact hfx
        · intro x hx
          exact Or.inl (hKphys x (Nat.ne_of_lt (hXlt x (List.mem_of_mem_tail hx)))).1
      · intro x hx y hy
        rw [ha, Option.some.injEq] at hx
        simp only [List.head?_cons, Option.some.injEq] at hy
        subst hx
        subst hy
        refine ⟨hab.1, ?_, Or.inr hKb_prev, ?_⟩
        · rw [(hKphys a (Nat.ne_of_lt hab.1)).2]
          exact hab.2.1
        · intro hcon
          rw [hKflag a (Nat.ne_of_lt hab.1), hfa] at hcon
          exact absurd hcon.1 (by simp)
    · rw [hY2]
      refine List.chain'_cons.mpr ⟨?_, ?_⟩
      · refine ⟨hbc.1, ?_, ?_, ?_⟩
        · rw [hKb_next, hc_eq]
        · rcases hbc.2.2.1 with hor | hor <;>
            rw [(hKphys c (Nat.ne_of_gt hbc.1)).1]
          · exact Or.inl hor
          · exact Or.inr hor
        · intro hcon
          rw [hKflag c (Nat.ne_of_gt hbc.1), hfc] at hcon
          exact absurd hcon.2 (by simp)
      · have hchCY : List.Chain' (physStep H) (c :: Y2) := by
          rw [← hY2]
          exact (List.chain'_cons'.mp hchBY).2
        have hmemY : ∀ x ∈ c :: Y2, b < x := by
          intro x hx
          exact hYgt x (by rw [hY2]; exact hx)
        refine chain'_transfer_phys hchCY ?_ ?_ ?_ ?_
        · intro x hx
          refine rep_mem_lt h x ?_
          have : x ∈ L2 ++ [H.block_count - 1] := by rw [hY2]; exact hx
          simp only [List.mem_append, List.mem_cons, List.mem_singleton] at this ⊢
          tauto
        · intro x hx
          exact (hKphys x (Nat.ne_of_gt (hmemY x (List.mem_of_mem_dropLast hx)))).2
        · intro x hx hfx
          rw [hKflag x (Nat.ne_of_gt (hmemY x hx))] at hfx
          exact hfx
        · intro x hx
          exact Or.inl (hKphys x (Nat.ne_of_gt (hmemY x (List.mem_of_mem_tail hx)))).1
  · rw [(hKphys 0 (by omega)).1, h.prev0]
  · rw [scnt, (hKphys _ (by omega)).2, h.nextS]
  · rw [scnt, hKflag _ (by omega), h.flagS]
  · have he : (0 :: ((b :: F) ++ [0])) = 0 :: b :: (F ++ [0]) := by simp
    rw [he]
    refine List.chain'_cons.mpr ⟨⟨hK0nf, hKb_pf⟩, ?_⟩
    refine List.chain'_cons'.mpr ⟨?_, ?_⟩
    · intro y hy
      rw [hf1] at hy
      obtain rfl : f1 = y := by injection hy
      exact ⟨hKb_nf, hKf1pf⟩
    · have hndF0 : (F ++ [0]).Nodup := by
        rw [List.nodup_append]
        refine ⟨h.fnodup, by simp, ?_⟩
        intro x hx hx0
        simp only [List.mem_singleton] at hx0
        subst hx0
        exact absurd (rep_fsub h 0 hx).1 (by omega)
      refine chain'_transfer_free (List.chain'_cons'.mp h.fchain).2 ?_ ?_
      · intro x hx
        rw [List.dropLast_concat] at hx
        exact hKnf_other x (fun he2 => hbnF (he2 ▸ hx))
          (fun he2 => absurd (rep_fsub h x hx).1 (by omega))
      · intro x hx
        refine hKpf_other x ?_ (ne_head_of_mem_tail hndF0 hx hf1)
        have hxm : x ∈ F ++ [0] := List.mem_of_mem_tail hx
        rcases List.mem_append.mp hxm with hx2 | hx2
        · exact fun he2 => hbnF (he2 ▸ hx2)
        · simp only [List.mem_singleton] at hx2
          subst hx2
          omega
  · exact List.nodup_cons.mpr ⟨hbnF, h.fnodup⟩
  · intro i
    by_cases hib : i = b
    · subst hib
      constructor
      · intro _
        exact ⟨hmemb, hKb_flag⟩
      · intro _
        simp
    · rw [hKflag i hib]
      constructor
      · intro hi
        rcases List.mem_cons.mp hi with he | hi
        · exact absurd he hib
        · exact (h.fmem i).mp hi
      · intro hi
        exact List.mem_cons_of_mem b ((h.fmem i).mpr hi)


/-! ### Invariant preservation: `free` -/

/-- The second half of `free`: with the successor already merged (or not
free), either join into a free predecessor or push onto the free list.
`p` is the masked back-pointer of `b`, as the source computes it before
any merging. -/
theorem rep_free_tail {H : Heap} {L1 L2 F : List Nat} {b p : Nat}
    (h : Rep H (L1 ++ b :: L2) F)
    (hfb : is_free (H.blk b) = false)
    (hfn : is_free (H.blk ((H.blk b).next)) = false)
    (hp : p = (H.blk b).prev &&& free_mask) :
    ∃ Lr Fr, Rep (if is_free (H.blk p) then join H p b else push_free H b) Lr Fr := by
  have hch := h.chain
  rcases List.eq_nil_or_concat L1 with rfl | ⟨T, a, rfl⟩
  · have hab : physStep H 0 b := by
      have hc : List.Chain' (physStep H) ([] ++ 0 :: b :: (L2 ++ [H.block_count - 1])) := by
        simpa using hch
      exact chain'_pair hc
    have hprevb : (H.blk b).prev = 0 := by
      rcases hab.2.2.1 with hx | hx
      · exact hx
      · exact absurd (is_free_high (by norm_num) hx) (by simp [hfb])
    have hp0 : p = 0 := by
      rw [hp, hprevb]
      exact and_mask_of_lt (by norm_num)
    rw [hp0, if_neg (by simp [rep_free0 h])]
    refine ⟨_, _, rep_push h hfb ?_ hfn⟩
    rw [hprevb, and_mask_of_lt (by norm_num : (0 : Nat) < 2 ^ 15)]
    exact rep_free0 h
  · rw [List.concat_eq_append] at h hch
    have hsh : ((0 : Nat) :: (((T ++ [a]) ++ b :: L2) ++ [H.block_count - 1]))
        = (0 :: T) ++ a :: b :: (L2 ++ [H.block_count - 1]) := by simp
    rw [hsh] at hch
    have hab : physStep H a b := chain'_pair hch
    have ha15 : a < 2 ^ 15 := by
      apply rep_mem_lt h
      simp
    have hprevb : (H.blk b).prev = a := by
      rcases hab.2.2.1 with hx | hx
      · exact hx
      · exact absurd (is_free_high ha15 hx) (by simp [hfb])
    have hpa : p = a := by rw [hp, hprevb, and_mask_of_lt ha15]
    rw [hpa]
    cases hfa : is_free (H.blk a) with
    | true =>
      rw [if_pos rfl]
      have h2 : Rep H (T ++ a :: b :: L2) F := by
        have he : (T ++ [a]) ++ b :: L2 = T ++ a :: b :: L2 := by simp
        rw [he] at h
        exact h
      exact ⟨_, _, (rep_join h2 hfb hfn).1⟩
    | false =>
      rw [if_neg (by simp)]
      refine ⟨_, _, rep_push h hfb ?_ hfn⟩
      rw [hprevb, and_mask_of_lt ha15]
      exact hfa

/-- `Umm::free(free_block_t&)` preserves the invariant: freeing any used
cell of the physical list yields a heap satisfying `Rep` again. -/
theorem rep_free_block {H : Heap} {L F : List Nat} {b : Nat}
    (h : Rep H L F) (hbL : b ∈ L) (hfb : is_free (H.blk b) = false) :
    ∃ Lr Fr, Rep (free_block H b) Lr Fr := by
  obtain ⟨L1, L2, rfl⟩ := List.append_of_mem hbL
  have hch := h.chain
  have hsh : ((0 : Nat) :: ((L1 ++ b :: L2) ++ [H.block_count - 1]))
      = (0 :: L1) ++ b :: (L2 ++ [H.block_count - 1]) := by simp
  rw [hsh] at hch
  cases L2 with
  | nil =>
    have hbs : physStep H b (H.block_count - 1) := by
      have hc : List.Chain' (physStep H)
          ((0 :: L1) ++ b :: (H.block_count - 1) :: ([] : List Nat)) := hch
      exact chain'_pair hc
    have hnextb : (H.blk b).next = H.block_count - 1 := hbs.2.1
    have hfs : is_free (H.blk ((H.blk b).next)) = false := by
      rw [hnextb]
      exact h.flagS
    have hcond : ¬(is_free (H.blk ((H.blk b).next)) = true) := by simp [hfs]
    simp only [free_block]
    rw [if_neg hcond]
    exact rep_free_tail h hfb hfs rfl
  | cons c L2' =>
    have hbc : physStep H b c := by
      have hc : List.Chain' (physStep H)
          ((0 :: L1) ++ b :: c :: (L2' ++ [H.block_count - 1])) := hch
      exact chain'_pair hc
    have hnextb : (H.blk b).next = c := hbc.2.1
    cases hfc : is_free (H.blk c) with
    | false =>
      have hfs : is_free (H.blk ((H.blk b).next)) = false := by
        rw [hnextb]
        exact hfc
      have hcond : ¬(is_free (H.blk ((H.blk b).next)) = true) := by simp [hfs]
      simp only [free_block]
      rw [if_neg hcond]
      exact rep_free_tail h hfb hfs rfl
    | true =>
      have hcL : c ∈ L1 ++ b :: c :: L2' := by simp
      have hcF : c ∈ F := (h.fmem c).mpr ⟨hcL, hfc⟩
      obtain ⟨F1, F2, rfl⟩ := List.append_of_mem hcF
      have hYne : (L2' ++ [H.block_count - 1] : List Nat) ≠ [] := by simp
      have hcd : physStep H c ((L2' ++ [H.block_count - 1]).head hYne) := by
        have h1 : List.Chain' (physStep H) (b :: c :: (L2' ++ [H.block_count - 1])) :=
          (List.chain'_split.mp hch).2
        exact chain'_head (List.chain'_cons.mp h1).2 (List.head?_eq_head hYne)
      set d := (L2' ++ [H.block_count - 1]).head hYne with hd_def
      have hnextc : (H.blk c).next = d := hcd.2.1
      have hfd : is_free (H.blk d) = false := by
        rcases Bool.eq_false_or_eq_true (is_free (H.blk d)) with hx | hx
        · exact absurd ⟨hfc, hx⟩ hcd.2.2.2
        · exact hx
      obtain ⟨hU, hUnext, hUprev, hUflagc⟩ := rep_unfree h
      have hUfree : ∀ j, j ≠ c → is_free ((unfree H c).blk j) = is_free (H.blk j) := by
        intro j hj
        unfold is_free
        rw [hUprev j hj]
      have hbc_lt : b < c := hbc.1
      have hcd_lt : c < d := hcd.1
      have hUflagd : is_free ((unfree H c).blk d) = false := by
        rw [hUfree d (by omega)]
        exact hfd
      have hUnextc : ((unfree H c).blk c).next = (H.blk c).next := hUnext c
      have hfcJ : is_free ((unfree H c).blk (((unfree H c).blk c).next)) = false := by
        rw [hUnextc, hnextc]
        exact hUflagd
      obtain ⟨hJrep, hJnext, hJflag, hJfree, hJnextb, hJprev⟩ := rep_join hU hUflagc hfcJ
      have hJb : is_free ((join (unfree H c) b c).blk b) = false := by
        rw [hJflag b, hUfree b (by omega)]
        exact hfb
      have hJnextb' : ((join (unfree H c) b c).blk b).next = d := by
        rw [hJnextb, hUnextc, hnextc]
      have hJfn : is_free ((join (unfree H c) b c).blk
          (((join (unfree H c) b c).blk b).next)) = false := by
        rw [hJnextb', hJflag d, hUfree d (by omega)]
        exact hfd
      have hbd : b ≠ ((unfree H c).blk c).next := by
        rw [hUnextc, hnextc]
        omega
      have hJpb : ((join (unfree H c) b c).blk b).prev = (H.blk b).prev := by
        rw [hJprev b hbd, hUprev b (by omega)]
      have hcondT : is_free (H.blk ((H.blk b).next)) = true := by
        rw [hnextb]
        exact hfc
      simp only [free_block]
      rw [if_pos hcondT, hnextb]
      exact rep_free_tail hJrep hJb hJfn (by rw [hJpb])


/-! ### Invariant preservation: `malloc` -/

/-- `Umm::malloc` preserves the invariant: for any request whose wrapped
cell count is positive (or zero bytes), the resulting heap satisfies
`Rep` again. -/
theorem rep_malloc {H : Heap} {L F : List Nat} {n : Nat}
    (h : Rep H L F) (hs : SizeOk n) :
    ∃ Lr Fr, Rep (malloc H n).2 Lr Fr := by
  by_cases hn0 : n = 0
  · refine ⟨L, F, ?_⟩
    subst hn0
    simpa [malloc] using h
  have hreq : 1 ≤ blocks_to_hold_bytes n := hs.resolve_left hn0
  cases hfind : find_first_free_block_of_size H (blocks_to_hold_bytes n) with
  | none =>
    refine ⟨L, F, ?_⟩
    have hm2 : (malloc H n).2 = H := by
      simp [malloc, hn0, hfind]
    rw [hm2]
    exact h
  | some b =>
    have hfind' := hfind
    rw [fffb_eq_find h] at hfind'
    obtain ⟨F1, F2, rfl, hpb, hmin⟩ := find?_split hfind'
    have hbF : b ∈ F1 ++ b :: F2 := by simp
    have hbL : b ∈ L := ((h.fmem b).mp hbF).1
    obtain ⟨L1, L2, rfl⟩ := List.append_of_mem hbL
    by_cases hsplit : blocks_to_hold_bytes n + 1 < size_in_blocks H b
    · have hm2 : (malloc H n).2 = (split_tail H b (blocks_to_hold_bytes n)).1 := by
        simp [malloc, hn0, hfind, hsplit]
      rw [hm2]
      exact ⟨_, _, (rep_split_tail h hreq (by omega)).1⟩
    · have hm2 : (malloc H n).2 = unfree H b := by
        simp [malloc, hn0, hfind, hsplit]
      rw [hm2]
      exact ⟨_, _, (rep_unfree h).1⟩


/-! ### Invariant preservation: `realloc`, and reachability -/

/-- Adjacent cells of the physical list form a `physStep` pair. -/
theorem rep_pair {H : Heap} {L1 L2 F : List Nat} {x y : Nat}
    (h : Rep H (L1 ++ x :: y :: L2) F) : physStep H x y := by
  have hch := h.chain
  have hsh : ((0 : Nat) :: ((L1 ++ x :: y :: L2) ++ [H.block_count - 1]))
      = (0 :: L1) ++ x :: y :: (L2 ++ [H.block_count - 1]) := by simp
  rw [hsh] at hch
  exact chain'_pair hch

/-- The last cell of the physical list pairs with the tail sentinel. -/
theorem rep_pair_last {H : Heap} {L1 F : List Nat} {x : Nat}
    (h : Rep H (L1 ++ [x]) F) : physStep H x (H.block_count - 1) := by
  have hch := h.chain
  have hsh : ((0 : Nat) :: ((L1 ++ [x]) ++ [H.block_count - 1]))
      = (0 :: L1) ++ x :: (H.block_count - 1) :: ([] ++ [H.block_count - 1]).tail := by simp
  rw [hsh] at hch
  exact chain'_pair hch

/-- Every cell of the physical list has a `physStep` successor: the next
cell of the list, or the tail sentinel. -/
theorem rep_succ {H : Heap} {L1 L2 F : List Nat} {b : Nat}
    (h : Rep H (L1 ++ b :: L2) F) :
    ∃ d, (L2 ++ [H.block_count - 1]).head? = some d ∧ physStep H b d := by
  have hch := h.chain
  have hsh : ((0 : Nat) :: ((L1 ++ b :: L2) ++ [H.block_count - 1]))
      = (0 :: L1) ++ b :: (L2 ++ [H.block_count - 1]) := by simp
  rw [hsh] at hch
  refine ⟨_, List.head?_eq_head (by simp), ?_⟩
  exact chain'_head (List.chain'_split.mp hch).2 (List.head?_eq_head (by simp))

/-- `Umm::realloc` preserves the invariant, for a valid (or null) pointer
and a request whose wrapped cell count is positive (or zero bytes). -/
theorem rep_realloc {H : Heap} {L F : List Nat} {p : Option Nat} {n : Nat}
    (h : Rep H L F) (hp : ∀ i ∈ p, ValidPtr H i) (hs : SizeOk n) :
    ∃ Lr Fr, Rep (realloc H p n).2 Lr Fr := by
  cases p with
  | none => exact rep_malloc h hs
  | some block =>
    have hv : ValidPtr H block := hp block rfl
    have hbL : block ∈ L := by
      have hx := hv.1
      rwa [physWalk_eq h] at hx
    have hfb : is_free (H.blk block) = false := hv.2
    by_cases hn0 : n = 0
    · subst hn0
      have hm2 : (realloc H (some block) 0).2 = free_block H block := by
        simp [realloc]
      rw [hm2]
      exact rep_free_block h hbL hfb
    have hreq : 1 ≤ blocks_to_hold_bytes n := hs.resolve_left hn0
    by_cases hshrink : blocks_to_hold_bytes n < size_in_blocks H block - 1
    · -- shrink in place by at least two cells
      obtain ⟨L1, L2, rfl⟩ := List.append_of_mem hbL
      have hb0 : 0 < block := (rep_bounds h block (by simp)).1
      cases hfcn : is_free (H.blk ((H.blk block).next)) with
      | true =>
        -- merge the spare cells into the free successor
        cases L2 with
        | nil =>
          exfalso
          have hlast := rep_pair_last h
          rw [hlast.2.1, h.flagS] at hfcn
          exact Bool.noConfusion hfcn
        | cons c L2' =>
          have hbc := rep_pair h
          have hnextb : (H.blk block).next = c := hbc.2.1
          have hc0 : block < c := hbc.1
          have hfc : is_free (H.blk c) = true := by rwa [hnextb] at hfcn
          have hbcs : size_in_blocks H block = c - block := by
            unfold size_in_blocks
            rw [hnextb, if_neg (by omega)]
          have hcF : c ∈ F := (h.fmem c).mpr ⟨by simp, hfc⟩
          obtain ⟨F1, F2, rfl⟩ := List.append_of_mem hcF
          obtain ⟨hU, hUnext, hUprev, hUflagc⟩ := rep_unfree h
          have hUfree : ∀ j, j ≠ c → is_free ((unfree H c).blk j) = is_free (H.blk j) := by
            intro j hj
            unfold is_free
            rw [hUprev j hj]
          have hklt : blocks_to_hold_bytes n < size_in_blocks (unfree H c) block := by
            have hsz : size_in_blocks (unfree H c) block = size_in_blocks H block := by
              unfold size_in_blocks
              rw [hUnext block]
            rw [hsz]
            omega
          obtain ⟨hS, hSret, hSsz1, hSsz0, hSflagb1, hSflag, hSfree⟩ :=
            rep_split_head hU hreq hklt
          have hb1c : block + blocks_to_hold_bytes n < c := by omega
          -- successor d of c, in H and in the split heap
          have hH' : Rep H ((L1 ++ [block]) ++ c :: L2') (F1 ++ c :: F2) := by
            have he : (L1 ++ [block]) ++ c :: L2' = L1 ++ block :: c :: L2' := by simp
            rw [he]
            exact h
          obtain ⟨d, hd, hcd⟩ := rep_succ hH'
          have hfd : is_free (H.blk d) = false := by
            rcases Bool.eq_false_or_eq_true (is_free (H.blk d)) with hx | hx
            · exact absurd ⟨hfc, hx⟩ hcd.2.2.2
            · exact hx
          have hS' : Rep (split_head (unfree H c) block (blocks_to_hold_bytes n)).1
              ((L1 ++ [block, block + blocks_to_hold_bytes n]) ++ c :: L2') (F1 ++ F2) := by
            have he : (L1 ++ [block, block + blocks_to_hold_bytes n]) ++ c :: L2'
                = L1 ++ block :: (block + blocks_to_hold_bytes n) :: c :: L2' := by simp
            rw [he]
            exact hS
          obtain ⟨d2, hd2, hcdS⟩ := rep_succ hS'
          have hsc : (split_head (unfree H c) block (blocks_to_hold_bytes n)).1.block_count
              = H.block_count := rfl
          rw [hsc] at hd2
          have hdd : d2 = d := by
            rw [hd] at hd2
            exact (Option.some.inj hd2).symm
          rw [hdd] at hcdS
          have hcdlt : c < d := hcd.1
          have hfdS : is_free ((split_head (unfree H c) block
              (blocks_to_hold_bytes n)).1.blk d) = false := by
            rw [hSflag d (by omega), hUfree d (by omega)]
            exact hfd
          have hfcS : is_free ((split_head (unfree H c) block
              (blocks_to_hold_bytes n)).1.blk c) = false := by
            rw [hSflag c (by omega)]
            exact hUflagc
          have hS'' : Rep (split_head (unfree H c) block (blocks_to_hold_bytes n)).1
              ((L1 ++ [block]) ++ (block + blocks_to_hold_bytes n) :: c :: L2')
              (F1 ++ F2) := by
            have he : (L1 ++ [block]) ++ (block + blocks_to_hold_bytes n) :: c :: L2'
                = L1 ++ block :: (block + blocks_to_hold_bytes n) :: c :: L2' := by simp
            rw [he]
            exact hS
          have hfcJ : is_free ((split_head (unfree H c) block (blocks_to_hold_bytes n)).1.blk
              (((split_head (unfree H c) block (blocks_to_hold_bytes n)).1.blk c).next))
              = false := by
            rw [hcdS.2.1]
            exact hfdS
          obtain ⟨hJ, hJnext, hJflag, hJfree, hJnexta, hJprev⟩ := rep_join hS'' hfcS hfcJ
          have hJb1 : is_free ((join (split_head (unfree H c) block
              (blocks_to_hold_bytes n)).1 (block + blocks_to_hold_bytes n) c).blk
              (block + blocks_to_hold_bytes n)) = false := by
            rw [hJflag (block + blocks_to_hold_bytes n)]
            exact hSflagb1
          obtain ⟨Lr, Fr, hr⟩ := rep_free_block hJ (by simp) hJb1
          refine ⟨Lr, Fr, ?_⟩
          have hm2 : (realloc H (some block) n).2
              = free_block (join (split_head (unfree H c) block
                  (blocks_to_hold_bytes n)).1 (block + blocks_to_hold_bytes n) c)
                (block + blocks_to_hold_bytes n) := by
            simp [realloc, hn0, hshrink, hfcn, hfc, hnextb, hSret]
          rw [hm2]
          exact hr
      | false =>
        cases hfpv : is_free (H.blk ((H.blk block).prev)) with
        | true =>
          -- move the payload down into the free predecessor
          rcases List.eq_nil_or_concat L1 with rfl | ⟨T, a, rfl⟩
          · exfalso
            have h0b : physStep H 0 block := by
              have hch := h.chain
              exact (List.chain'_cons.mp (by simpa using hch)).1
            have hprevb : (H.blk block).prev = 0 := by
              rcases h0b.2.2.1 with hx | hx
              · exact hx
              · exact absurd (is_free_high (by norm_num) hx) (by simp [hfb])
            rw [hprevb, rep_free0 h] at hfpv
            exact Bool.noConfusion hfpv
          · rw [List.concat_eq_append] at h
            have hab : physStep H a block := by
              have hr2 : Rep H (T ++ a :: block :: L2) F := by
                have he : T ++ a :: block :: L2 = (T ++ [a]) ++ block :: L2 := by simp
                rw [he]
                exact h
              exact rep_pair hr2
            have ha15 : a < 2 ^ 15 := by
              apply rep_mem_lt h
              simp
            have hprevb : (H.blk block).prev = a := by
              rcases hab.2.2.1 with hx | hx
              · exact hx
              · exact absurd (is_free_high ha15 hx) (by simp [hfb])
            have hfa : is_free (H.blk a) = true := by rwa [hprevb] at hfpv
            have hM : Rep (memmove H
                (ptr_from_block ((H.blk block).next - blocks_to_hold_bytes n))
                (ptr_from_block block) n) ((T ++ [a]) ++ block :: L2) F :=
              rep_memmove h _ _ _
            have hszM : size_in_blocks (memmove H
                (ptr_from_block ((H.blk block).next - blocks_to_hold_bytes n))
                (ptr_from_block block) n) block = size_in_blocks H block := rfl
            obtain ⟨hT, hTret, hTsz1, hTsz0, hTflagb1, hTflag, hTfree⟩ :=
              rep_split_tail hM hreq (by rw [hszM]; omega)
            have hnb : ((memmove H
                (ptr_from_block ((H.blk block).next - blocks_to_hold_bytes n))
                (ptr_from_block block) n).blk block).next = (H.blk block).next := rfl
            rw [hnb] at hT hTret hTflagb1 hTflag
            have hblt : block < (H.blk block).next - blocks_to_hold_bytes n := by
              have hsz : size_in_blocks H block ≤ (H.blk block).next - block := by
                unfold size_in_blocks
                split <;> omega
              omega
            have hT' : Rep (split_tail (memmove H
                (ptr_from_block ((H.blk block).next - blocks_to_hold_bytes n))
                (ptr_from_block block) n) block (blocks_to_hold_bytes n)).1
                (T ++ a :: block :: (((H.blk block).next - blocks_to_hold_bytes n) :: L2))
                F := by
              have he : T ++ a :: block :: (((H.blk block).next - blocks_to_hold_bytes n)
                  :: L2) = (T ++ [a]) ++ block :: ((H.blk block).next -
                  blocks_to_hold_bytes n) :: L2 := by simp
              rw [he]
              exact hT
            have hTb : is_free ((split_tail (memmove H
                (ptr_from_block ((H.blk block).next - blocks_to_hold_bytes n))
                (ptr_from_block block) n) block (blocks_to_hold_bytes n)).1.blk block)
                = false := by
              rw [hTflag block (by omega)]
              exact hfb
            obtain ⟨d2, hd2, hbdT⟩ := rep_succ hT
            have hd2v : d2 = (H.blk block).next - blocks_to_hold_bytes n := by
              simp at hd2
              omega
            subst hd2v
            have hfcJ : is_free ((split_tail (memmove H
                (ptr_from_block ((H.blk block).next - blocks_to_hold_bytes n))
                (ptr_from_block block) n) block (blocks_to_hold_bytes n)).1.blk
                (((split_tail (memmove H
                (ptr_from_block ((H.blk block).next - blocks_to_hold_bytes n))
                (ptr_from_block block) n) block (blocks_to_hold_bytes n)).1.blk block).next))
                = false := by
              rw [hbdT.2.1]
              exact hTflagb1
            obtain ⟨hJ, hJ2, hJ3, hJ4, hJ5, hJ6⟩ := rep_join hT' hTb hfcJ
            have hm2 : (realloc H (some block) n).2
                = join (split_tail (memmove H
                    (ptr_from_block ((H.blk block).next - blocks_to_hold_bytes n))
                    (ptr_from_block block) n) block (blocks_to_hold_bytes n)).1 a block := by
              simp [realloc, hn0, hshrink, hfcn, hfpv, hfa, hprevb]
            rw [hm2]
            exact ⟨_, _, hJ⟩
        | false =>
          -- split in place, then free the spare cells
          obtain ⟨hS, hSret, hSsz1, hSsz0, hSflagb1, hSflag, hSfree⟩ :=
            rep_split_head h hreq (by omega)
          obtain ⟨Lr, Fr, hr⟩ := rep_free_block hS (by simp) hSflagb1
          refine ⟨Lr, Fr, ?_⟩
          have hm2 : (realloc H (some block) n).2
              = free_block (split_head H block (blocks_to_hold_bytes n)).1
                (block + blocks_to_hold_bytes n) := by
            simp [realloc, hn0, hshrink, hfcn, hfpv, hSret]
          rw [hm2]
          exact hr
    · by_cases hgrow : size_in_blocks H block < blocks_to_hold_bytes n
      · -- move to a bigger block
        cases hfind : find_first_free_block_of_size H (blocks_to_hold_bytes n) with
        | none =>
          refine ⟨L, F, ?_⟩
          have hm2 : (realloc H (some block) n).2 = H := by
            simp [realloc, hn0, hshrink, hgrow, hfind]
          rw [hm2]
          exact h
        | some nb =>
          have hfind' := hfind
          rw [fffb_eq_find h] at hfind'
          obtain ⟨F1, F2, rfl, hpb, hmin⟩ := find?_split hfind'
          obtain ⟨hU, hUnext, hUprev, hUflagnb⟩ := rep_unfree h
          have hnb_free : is_free (H.blk nb) = true := ((h.fmem nb).mp (by simp)).2
          have hne : block ≠ nb := by
            intro he
            rw [he, hnb_free] at hfb
            exact Bool.noConfusion hfb
          have hM : Rep (memmove (unfree H nb) (ptr_from_block nb) (ptr_from_block block)
              (size_in_blocks H block * block_size - block_overhead)) L (F1 ++ F2) :=
            rep_memmove hU _ _ _
          have hMflag : is_free ((memmove (unfree H nb) (ptr_from_block nb)
              (ptr_from_block block)
              (size_in_blocks H block * block_size - block_overhead)).blk block) = false := by
            show is_free ((unfree H nb).blk block) = false
            unfold is_free
            rw [hUprev block hne]
            exact hfb
          obtain ⟨Lr, Fr, hr⟩ := rep_free_block hM hbL hMflag
          refine ⟨Lr, Fr, ?_⟩
          have hm2 : (realloc H (some block) n).2
              = free_block (memmove (unfree H nb) (ptr_from_block nb) (ptr_from_block block)
                (size_in_blocks H block * block_size - block_overhead)) block := by
            simp [realloc, hn0, hshrink, hgrow, hfind]
          rw [hm2]
          exact hr
      · -- keep the block
        refine ⟨L, F, ?_⟩
        have hm2 : (realloc H (some block) n).2 = H := by
          simp [realloc, hn0, hshrink, hgrow]
        rw [hm2]
        exact h


/-! ### The invariant properties from `Rep`, and reachability -/

/-- Every cell of the physical list has a `physStep` predecessor below
`2^15`: the previous cell of the list, or the head sentinel. -/
theorem rep_pred {H : Heap} {L1 L2 F : List Nat} {b : Nat}
    (h : Rep H (L1 ++ b :: L2) F) :
    ∃ a, a < 2 ^ 15 ∧ physStep H a b := by
  rcases List.eq_nil_or_concat L1 with rfl | ⟨T, a, rfl⟩
  · refine ⟨0, by norm_num, ?_⟩
    have hch := h.chain
    exact (List.chain'_cons.mp (by simpa using hch)).1
  · rw [List.concat_eq_append] at h
    have hab : physStep H a b := by
      have hr2 : Rep H (T ++ a :: b :: L2) F := by
        have he : T ++ a :: b :: L2 = (T ++ [a]) ++ b :: L2 := by simp
        rw [he]
        exact h
      exact rep_pair hr2
    refine ⟨a, ?_, hab⟩
    apply rep_mem_lt h
    simp

/-- A `Rep` heap satisfies the physical-list consistency property. -/
theorem rep_physConsistent {H : Heap} {L F : List Nat} (h : Rep H L F) :
    physConsistent H := by
  have hw : physWalk H = L := physWalk_eq h
  refine ⟨rep_next0 h, h.prev0, h.nextS, ?_, ?_, ?_⟩
  · intro b hb
    rw [hw] at hb
    obtain ⟨L1, L2, rfl⟩ := List.append_of_mem hb
    obtain ⟨a, ha15, hab⟩ := rep_pred h
    obtain ⟨d, hd, hbd⟩ := rep_succ h
    have hb15 : b < 2 ^ 15 := by
      apply rep_mem_lt h
      simp
    constructor
    · rw [prev_and_mask ha15 hab.2.2.1, hab.2.1]
    · rw [hbd.2.1, prev_and_mask hb15 hbd.2.2.1]
  · have hch := h.chain
    have hlt : List.Chain' (fun a b => a < b) (0 :: (L ++ [H.block_count - 1])) :=
      List.Chain'.imp (fun a b hab => hab.1) hch
    rw [hw]
    exact hlt.tail
  · have hseq : NextSeq H ((H.blk 0).next) L := nextSeq_of_chain L 0 h.chain
    rw [rep_next0 h] at hseq
    rw [hw, nextSeq_sum L 1 hseq]
    omega

/-- Every cell of the free cycle (head sentinel included) is doubly
linked: its forward and backward neighbours point back at it. -/
theorem rep_free_links {H : Heap} {L F : List Nat} (h : Rep H L F) :
    ∀ b ∈ 0 :: F, (H.blk ((H.blk b).next_free)).prev_free = b ∧
      (H.blk ((H.blk b).prev_free)).next_free = b := by
  intro b hb
  have hch := h.fchain
  constructor
  · -- forward neighbour
    obtain ⟨X, Y, hxy⟩ := List.append_of_mem hb
    have hsh : ((0 : Nat) :: (F ++ [0])) = (0 :: F) ++ [0] := by simp
    rw [hsh, hxy] at hch
    have he : (X ++ b :: Y) ++ [0] = X ++ b :: (Y ++ [0]) := by simp
    rw [he] at hch
    have hstep : freeStep H b ((Y ++ [0]).head (by simp)) :=
      chain'_head (List.chain'_split.mp hch).2 (List.head?_eq_head (by simp))
    rw [hstep.1]
    exact hstep.2
  · -- backward neighbour
    have hb' : b ∈ F ++ [0] := by
      rcases List.mem_cons.mp hb with rfl | hbF
      · simp
      · exact List.mem_append_left _ hbF
    obtain ⟨X, Y, hxy⟩ := List.append_of_mem hb'
    rw [hxy] at hch
    rcases List.eq_nil_or_concat X with rfl | ⟨T, x, rfl⟩
    · have hstep : freeStep H 0 b := (List.chain'_cons.mp (by simpa using hch)).1
      rw [hstep.2]
      exact hstep.1
    · rw [List.concat_eq_append] at hch
      have hstep : freeStep H x b := by
        have he : ((0 : Nat) :: ((T ++ [x]) ++ b :: Y)) = (0 :: T) ++ x :: b :: Y := by simp
        rw [he] at hch
        exact chain'_pair hch
      rw [hstep.2]
      exact hstep.1

/-- A `Rep` heap satisfies the free-list consistency property. -/
theorem rep_freeConsistent {H : Heap} {L F : List Nat} (h : Rep H L F) :
    freeConsistent H := by
  have hw : physWalk H = L := physWalk_eq h
  have hf : freeWalk H = F := freeWalk_eq h
  constructor
  · intro b hb
    rw [hw] at hb
    rw [hf]
    constructor
    · intro hbF
      exact ((h.fmem b).mp hbF).2
    · intro hflag
      exact (h.fmem b).mpr ⟨hb, hflag⟩
  · rw [hf]
    exact rep_free_links h

/-- A `Rep` heap satisfies the coalescing property. -/
theorem rep_noAdjacentFree {H : Heap} {L F : List Nat} (h : Rep H L F) :
    noAdjacentFree H := by
  intro b hb hflag
  rw [physWalk_eq h] at hb
  obtain ⟨L1, L2, rfl⟩ := List.append_of_mem hb
  obtain ⟨a, ha15, hab⟩ := rep_pred h
  obtain ⟨d, hd, hbd⟩ := rep_succ h
  constructor
  · rw [hbd.2.1]
    rcases Bool.eq_false_or_eq_true (is_free (H.blk d)) with hx | hx
    · exact absurd ⟨hflag, hx⟩ hbd.2.2.2
    · exact hx
  · rw [prev_and_mask ha15 hab.2.2.1]
    rcases Bool.eq_false_or_eq_true (is_free (H.blk a)) with hx | hx
    · exact absurd ⟨hx, hflag⟩ hab.2.2.2
    · exact hx

/-- States reachable by the public interface satisfy the structural
invariant. -/
theorem reachable_rep : ∀ {H : Heap}, Reachable H → ∃ L F, Rep H L F := by
  intro H h
  induction h with
  | start H0 h4 h15 => exact ⟨[1], [1], rep_init H0 h4 h15⟩
  | mstep n hn h ih =>
    obtain ⟨L, F, hr⟩ := ih
    exact rep_malloc hr hn
  | fstep p hp h ih =>
    obtain ⟨L, F, hr⟩ := ih
    cases p with
    | none => exact ⟨L, F, hr⟩
    | some b =>
      have hv := hp b rfl
      have hbL : b ∈ L := by
        have hx := hv.1
        rwa [physWalk_eq hr] at hx
      exact rep_free_block hr hbL hv.2
  | rstep p n hp hn h ih =>
    obtain ⟨L, F, hr⟩ := ih
    exact rep_realloc hr hp hn


/-! ### Claim C1, counterexample

The claim quantifies over every arena with more than 3 cells and every
sequence of public calls.  A single call `malloc(2^64 - 11)` on a fresh
8-cell arena wraps the cell count to 0 inside `blocks_to_hold_bytes`, and
`split_tail` with split size 0 rewires the tail sentinel into a
self-loop: `blocks[N-1].next` becomes 7, not 0. -/

/-- C1 fails as stated: after `init` and one public `malloc` call on an
arena of 8 > 3 cells, the physical list is not consistent (the tail
sentinel's `next` is 7). -/
theorem c1_counterexample :
    3 < h8bad.block_count ∧ (h8bad.blk (h8bad.block_count - 1)).next = 7 ∧
    ¬ physConsistent h8bad := by decide

/-- C2 fails as stated: after the legal call sequence leading to `h16b`
(four allocations, two frees, one shrinking `realloc` of size `2^64-11`,
one more free), cell 11 is a non-sentinel cell on the free-list walk
whose free flag is clear. -/
theorem c2_counterexample :
    11 ∈ physWalk h16b ∧ 11 ∈ freeWalk h16b ∧ is_free (h16b.blk 11) = false ∧
    ¬ freeConsistent h16b := by decide

/-- C3 fails as stated: after the legal call sequence leading to `h16a`,
cells 9 and 11 are physically adjacent non-sentinel cells that are both
flagged free. -/
theorem c3_counterexample :
    9 ∈ physWalk h16a ∧ is_free (h16a.blk 9) = true ∧
    is_free (h16a.blk ((h16a.blk 9).next)) = true ∧ ¬ noAdjacentFree h16a := by decide

/-- C4 fails as stated: with `n = 2^64 - 1` on a fresh 8-cell arena no
free block comes close to the claimed `k = ceil((n+4)/8)` cells, so the
claim predicts a null return, but the wrapped cell count is 1 and
`malloc` returns the block at cell 6. -/
theorem c4_counterexample :
    (malloc (fresh 8) (2 ^ 64 - 1)).1 = some 6 ∧
    ∀ b ∈ freeWalk (fresh 8), size_in_blocks (fresh 8) b < (2 ^ 64 - 1 + 4 + 7) / 8 := by
  decide

/-- C7 fails as stated: in `hJoin` the pair (1, 2) satisfies `join`'s
precondition and cell 3 = `blocks[2].next` is flagged free, but after
`join` its `prev` is 1 with the flag cleared, not preserved. -/
theorem c7_counterexample :
    (hJoin.blk 1).next = 2 ∧ (hJoin.blk 2).prev &&& free_mask = 1 ∧
    is_free (hJoin.blk 3) = true ∧ ((join hJoin 1 2).blk 3).prev = 1 ∧
    is_free ((join hJoin 1 2).blk 3) = false := by decide

/-- C7 (amended): for physically adjacent blocks satisfying `join`'s
precondition, `join(b0, b1)` sets `b0.next` to `b1.next` and sets
`blocks[b1.next].prev` to `index(b0)` with the free flag cleared (not
preserved), leaving every other cell and the payload bytes unchanged. -/
theorem c7_join_clears_flag (H : Heap) (b0 b1 : Nat)
    (h01 : b0 < b1) (h1n : b1 < (H.blk b1).next)
    (_hpre1 : (H.blk b0).next = b1) (hpre2 : (H.blk b1).prev &&& free_mask = b0) :
    (join H b0 b1).blk b0 = { H.blk b0 with next := (H.blk b1).next } ∧
    (join H b0 b1).blk ((H.blk b1).next) = { H.blk ((H.blk b1).next) with prev := b0 } ∧
    is_free ((join H b0 b1).blk ((H.blk b1).next)) = false ∧
    (∀ j, j ≠ b0 → j ≠ (H.blk b1).next → (join H b0 b1).blk j = H.blk j) ∧
    (join H b0 b1).mem = H.mem := by
  obtain ⟨e0, ec, eo, em, _⟩ := join_spec H b0 b1 (Nat.ne_of_lt h01)
    (Nat.ne_of_lt (h01.trans h1n))
  rw [hpre2] at ec
  refine ⟨e0, ec, ?_, eo, em⟩
  rw [ec]
  exact is_free_low (hpre2 ▸ and_mask_lt (H.blk b1).prev)

/-- Witness for the amended C7 at the concrete heap `hJoin`. -/
theorem c7_witness :
    (1 : Nat) < 2 ∧ 2 < (hJoin.blk 2).next ∧ (hJoin.blk 1).next = 2 ∧
    (hJoin.blk 2).prev &&& free_mask = 1 ∧
    (join hJoin 1 2).blk ((hJoin.blk 2).next) =
      { hJoin.blk ((hJoin.blk 2).next) with prev := 1 } :=
  ⟨by decide, by decide, by decide, by decide,
    (c7_join_clears_flag hJoin 1 2 (by decide) (by decide) (by decide) (by decide)).2.1⟩

/-- C5: when `realloc` takes the grow path and the first-fit search
fails, it returns null and the heap — headers, free list and payload
bytes alike — is exactly the state passed in. -/
theorem c5_grow_fail (H : Heap) (i n : Nat) (_hr : Reachable H) (_hv : ValidPtr H i)
    (hn : 0 < n) (hgrow : size_in_blocks H i < blocks_to_hold_bytes n)
    (hff : find_first_free_block_of_size H (blocks_to_hold_bytes n) = none) :
    realloc H (some i) n = (none, H) := by
  have hne : n ≠ 0 := hn.ne'
  have h1 : ¬ (blocks_to_hold_bytes n < size_in_blocks H i - 1) := by omega
  simp only [realloc, if_neg hne, if_neg h1, if_pos hgrow, hff]

/-- Witness for C5: on a fresh 8-cell arena, allocate the whole arena
(36 bytes → 5 cells, taken whole), then grow to 48 bytes; the search
fails and `realloc` returns null with the state unchanged. -/
theorem c5_witness :
    Reachable (malloc (fresh 8) 36).2 ∧ ValidPtr (malloc (fresh 8) 36).2 1 ∧ (0 : Nat) < 48 ∧
    size_in_blocks (malloc (fresh 8) 36).2 1 < blocks_to_hold_bytes 48 ∧
    find_first_free_block_of_size (malloc (fresh 8) 36).2 (blocks_to_hold_bytes 48) = none ∧
    realloc (malloc (fresh 8) 36).2 (some 1) 48 = (none, (malloc (fresh 8) 36).2) := by
  have hr : Reachable (malloc (fresh 8) 36).2 :=
    Reachable.mstep 36 (Or.inr (by decide)) (Reachable.start _ (by decide) (by decide))
  exact ⟨hr, by decide, by decide, by decide, by decide,
    c5_grow_fail _ 1 48 hr (by decide) (by decide) (by decide) (by decide)⟩

/-- C6: `realloc(null, n)` is exactly `malloc(n)` (result and state),
`realloc(p, 0)` on a valid pointer is exactly `free(p)` returning null,
and `realloc(null, 0)` returns null and leaves the state unchanged. -/
theorem c6_realloc_dispatch (H : Heap) (i n : Nat) (_hn : 0 < n) (_hv : ValidPtr H i) :
    realloc H none n = malloc H n ∧
    realloc H (some i) 0 = (none, free_ptr H (some i)) ∧
    realloc H none 0 = (none, H) :=
  ⟨rfl, rfl, rfl⟩

/-- Witness for C6 on a reachable 8-cell state with the used block at
cell 1. -/
theorem c6_witness :
    (0 : Nat) < 5 ∧ ValidPtr (malloc (fresh 8) 36).2 1 ∧
    realloc (malloc (fresh 8) 36).2 none 5 = malloc (malloc (fresh 8) 36).2 5 :=
  ⟨by decide, by decide,
    (c6_realloc_dispatch (malloc (fresh 8) 36).2 1 5 (by decide) (by decide)).1⟩

/-- C8: on a fresh 1024-cell arena (8192 bytes), `malloc(8192 - 20)`
succeeds with the single huge block and `malloc(8192 - 19)` fails. -/
theorem c8_boundary :
    (malloc (fresh 1024) (8192 - 20)).1 = some 1 ∧
    (malloc (fresh 1024) (8192 - 19)).1 = none ∧
    (fresh (8192 / block_size)).block_count = 1024 := by decide

/-- C10: for every byte count above `SIZE_MAX - 11` the sum inside
`blocks_to_hold_bytes` wraps modulo 2^64, the resulting cell count is at
most 1, and `malloc` with such a size on a fresh arena returns a non-null
pointer to a 1-cell block instead of failing. -/
theorem c10_wrap (b : Nat) (h1 : 2 ^ 64 - 12 < b) (h2 : b < 2 ^ 64) :
    blocks_to_hold_bytes b = (b + 11 - 2 ^ 64) / 8 ∧ blocks_to_hold_bytes b ≤ 1 ∧
    (malloc (fresh 8) (2 ^ 64 - 1)).1 = some 6 ∧
    size_in_blocks (malloc (fresh 8) (2 ^ 64 - 1)).2 6 = 1 := by
  refine ⟨?_, ?_, by decide, by decide⟩ <;>
    (unfold blocks_to_hold_bytes block_overhead block_size; omega)

/-- Witness for C10 at `b = 2^64 - 1`. -/
theorem c10_witness :
    2 ^ 64 - 12 < 2 ^ 64 - 1 ∧ 2 ^ 64 - 1 < 2 ^ 64 ∧
    blocks_to_hold_bytes (2 ^ 64 - 1) = (2 ^ 64 - 1 + 11 - 2 ^ 64) / 8 :=
  ⟨by norm_num, by norm_num,
    (c10_wrap (2 ^ 64 - 1) (by norm_num) (by norm_num)).1⟩

/-! ### Claims C1-C4 amended, and claim C9 -/

/-- Without `size_t` or `unsigned` wrap, the cell count is the plain
`ceil((bytes + 4) / 8)`. -/
theorem blocks_formula {n : Nat} (hov : n + 11 < 2 ^ 64) (hov8 : (n + 11) / 8 < 2 ^ 32) :
    blocks_to_hold_bytes n = (n + 4 + 7) / 8 := by
  unfold blocks_to_hold_bytes block_overhead block_size
  omega

/-- **C1** (amended): from `init` on an arena of more than 3 and at most
`2^15` cells, every state reachable by public calls with valid pointers
and request sizes of nonzero wrapped cell count has a consistent
physical list: sentinel links, masked back-pointer agreement both ways
on every walked cell, strictly increasing indices up to the tail
sentinel, and cell sizes summing to `block_count - 2`. -/
theorem c1_phys_consistent {H : Heap} (h : Reachable H) : physConsistent H := by
  obtain ⟨L, F, hr⟩ := reachable_rep h
  exact rep_physConsistent hr

theorem c1_phys_consistent_witness : physConsistent (fresh 8) :=
  c1_phys_consistent (Reachable.start _ (by decide) (by decide))

/-- **C2** (amended): in every reachable state (same provisos as C1), a
walked cell is on the free-list walk from `blocks_[0].next_free` iff its
free flag is set, and the free list including the head sentinel is a
true doubly-linked list. -/
theorem c2_free_consistent {H : Heap} (h : Reachable H) : freeConsistent H := by
  obtain ⟨L, F, hr⟩ := reachable_rep h
  exact rep_freeConsistent hr

theorem c2_free_consistent_witness : freeConsistent (fresh 8) :=
  c2_free_consistent (Reachable.start _ (by decide) (by decide))

/-- **C3** (amended): in every reachable state (same provisos as C1), no
two physically adjacent walked cells are both free: a flagged cell's
successor and masked predecessor are both unflagged. -/
theorem c3_no_adjacent_free {H : Heap} (h : Reachable H) : noAdjacentFree H := by
  obtain ⟨L, F, hr⟩ := reachable_rep h
  exact rep_noAdjacentFree hr

theorem c3_no_adjacent_free_witness : noAdjacentFree (fresh 8) :=
  c3_no_adjacent_free (Reachable.start _ (by decide) (by decide))

/-- **C4** (amended): in a reachable state, for a request whose size
arithmetic does not wrap (`n + 11 < 2^64` and `(n + 11) / 8 < 2^32`):
`n = 0` returns null with the heap unchanged; otherwise the cell count
is the plain `ceil((n+4)/8)`, the search is first-fit over the
free-list walk, no fit returns null with the heap unchanged, a fit with
at least two spare cells splits off a trailing used block of exactly
the requested cell count and returns it, the remainder staying free
with its free-list node untouched, and otherwise the block is taken
whole with its flag cleared. -/
theorem c4_malloc_contract {H : Heap} {n : Nat} (h : Reachable H)
    (hov : n + 11 < 2 ^ 64) (hov8 : (n + 11) / 8 < 2 ^ 32) :
    (n = 0 → malloc H n = (none, H)) ∧
    (n ≠ 0 →
      blocks_to_hold_bytes n = (n + 4 + 7) / 8 ∧
      find_first_free_block_of_size H (blocks_to_hold_bytes n)
        = (freeWalk H).find? (fun x => decide (blocks_to_hold_bytes n ≤ size_in_blocks H x)) ∧
      (find_first_free_block_of_size H (blocks_to_hold_bytes n) = none →
        malloc H n = (none, H)) ∧
      ∀ b, find_first_free_block_of_size H (blocks_to_hold_bytes n) = some b →
        (blocks_to_hold_bytes n + 1 < size_in_blocks H b →
          malloc H n = (some ((H.blk b).next - blocks_to_hold_bytes n),
              (split_tail H b (blocks_to_hold_bytes n)).1) ∧
          size_in_blocks (split_tail H b (blocks_to_hold_bytes n)).1
              ((H.blk b).next - blocks_to_hold_bytes n) = blocks_to_hold_bytes n ∧
          is_free ((split_tail H b (blocks_to_hold_bytes n)).1.blk b) = true ∧
          ((split_tail H b (blocks_to_hold_bytes n)).1.blk b).next_free
              = (H.blk b).next_free ∧
          ((split_tail H b (blocks_to_hold_bytes n)).1.blk b).prev_free
              = (H.blk b).prev_free) ∧
        (¬ blocks_to_hold_bytes n + 1 < size_in_blocks H b →
          malloc H n = (some b, unfree H b) ∧
          is_free ((unfree H b).blk b) = false)) := by
  obtain ⟨L, F, hr⟩ := reachable_rep h
  constructor
  · intro hz
    subst hz
    simp [malloc]
  intro hn0
  have hk : blocks_to_hold_bytes n = (n + 4 + 7) / 8 := blocks_formula hov hov8
  have hreq : 1 ≤ blocks_to_hold_bytes n := by
    rw [hk]
    omega
  refine ⟨hk, by rw [fffb_eq_find hr, freeWalk_eq hr], ?_, ?_⟩
  · intro hfind
    simp [malloc, hn0, hfind]
  · intro b hfind
    have hfind' := hfind
    rw [fffb_eq_find hr] at hfind'
    obtain ⟨F1, F2, rfl, hpb, hmin⟩ := find?_split hfind'
    have hbfree : is_free (H.blk b) = true := ((hr.fmem b).mp (by simp)).2
    obtain ⟨L1, L2, rfl⟩ := List.append_of_mem ((hr.fmem b).mp (by simp)).1
    constructor
    · intro hsp
      have hb0 : 0 < b := (rep_bounds hr b (by simp)).1
      have hne0 : (H.blk b).next ≠ 0 := by
        intro he
        unfold size_in_blocks at hsp
        rw [if_pos he] at hsp
        omega
      have hszb : size_in_blocks H b = (H.blk b).next - b := by
        unfold size_in_blocks
        rw [if_neg hne0]
      obtain ⟨hS, hSret, hSsz1, hSsz0, hSflag1, hSflag, hSfree⟩ :=
        rep_split_tail hr hreq (by omega)
      have hbne : b ≠ (H.blk b).next - blocks_to_hold_bytes n := by omega
      refine ⟨?_, hSsz1, ?_, (hSfree b).1, (hSfree b).2⟩
      · simp [malloc, hn0, hfind, hsp, hSret]
      · rw [hSflag b hbne]
        exact hbfree
    · intro hsp
      refine ⟨?_, (rep_unfree hr).2.2.2⟩
      simp [malloc, hn0, hfind, hsp]

theorem c4_malloc_contract_witness :
    malloc (fresh 8) 0 = (none, fresh 8) ∧ blocks_to_hold_bytes 1 = (1 + 4 + 7) / 8 :=
  ⟨(c4_malloc_contract (H := fresh 8) (Reachable.start _ (by decide) (by decide))
      (by norm_num) (by norm_num)).1 rfl,
    ((c4_malloc_contract (H := fresh 8) (n := 1) (Reachable.start _ (by decide) (by decide))
      (by norm_num) (by norm_num)).2 (by decide)).1⟩

/-- **C9**: in a reachable state, when `malloc n` returns a pointer and
the size arithmetic does not wrap, the returned block holds at least the
requested cell count, so its payload capacity of
`size_in_blocks * 8 - 4` bytes is at least `n` bytes. -/
theorem c9_payload_capacity {H : Heap} {n q : Nat} (h : Reachable H)
    (hov : n + 11 < 2 ^ 64) (hov8 : (n + 11) / 8 < 2 ^ 32)
    (hm : (malloc H n).1 = some q) :
    blocks_to_hold_bytes n ≤ size_in_blocks (malloc H n).2 q ∧
    n ≤ size_in_blocks (malloc H n).2 q * block_size - block_overhead := by
  obtain ⟨L, F, hr⟩ := reachable_rep h
  have hk : blocks_to_hold_bytes n = (n + 4 + 7) / 8 := blocks_formula hov hov8
  by_cases hn0 : n = 0
  · subst hn0
    rw [show (malloc H 0).1 = none from by simp [malloc]] at hm
    exact absurd hm (by simp)
  have hreq : 1 ≤ blocks_to_hold_bytes n := by
    rw [hk]
    omega
  cases hfind : find_first_free_block_of_size H (blocks_to_hold_bytes n) with
  | none =>
    rw [show (malloc H n).1 = none from by simp [malloc, hn0, hfind]] at hm
    exact absurd hm (by simp)
  | some b =>
    have hfind' := hfind
    rw [fffb_eq_find hr] at hfind'
    obtain ⟨F1, F2, rfl, hpb, hmin⟩ := find?_split hfind'
    have hkb : blocks_to_hold_bytes n ≤ size_in_blocks H b := of_decide_eq_true (by simpa using hpb)
    obtain ⟨L1, L2, rfl⟩ := List.append_of_mem ((hr.fmem b).mp (by simp)).1
    by_cases hsp : blocks_to_hold_bytes n + 1 < size_in_blocks H b
    · obtain ⟨hS, hSret, hSsz1, hSsz0, hSflag1, hSflag, hSfree⟩ :=
        rep_split_tail hr hreq (by omega)
      have hmal : malloc H n = (some ((H.blk b).next - blocks_to_hold_bytes n),
          (split_tail H b (blocks_to_hold_bytes n)).1) := by
        simp [malloc, hn0, hfind, hsp, hSret]
      have hq : (H.blk b).next - blocks_to_hold_bytes n = q := by
        have hx := hm
        rw [hmal] at hx
        simpa using hx
      have hsz : size_in_blocks (malloc H n).2 q = blocks_to_hold_bytes n := by
        rw [hmal, ← hq]
        exact hSsz1
      rw [hsz]
      refine ⟨Nat.le_refl _, ?_⟩
      rw [hk]
      unfold block_size block_overhead
      omega
    · have hmal : malloc H n = (some b, unfree H b) := by
        simp [malloc, hn0, hfind, hsp]
      have hq : b = q := by
        have hx := hm
        rw [hmal] at hx
        simpa using hx
      subst hq
      have hsz : size_in_blocks (malloc H n).2 b = size_in_blocks H b := by
        rw [hmal]
        show size_in_blocks (unfree H b) b = size_in_blocks H b
        unfold size_in_blocks
        rw [(rep_unfree hr).2.1 b]
      rw [hsz]
      refine ⟨hkb, ?_⟩
      rw [hk] at hkb
      unfold block_size block_overhead
      omega

theorem c9_payload_capacity_witness :
    blocks_to_hold_bytes 1 ≤ size_in_blocks (malloc (fresh 8) 1).2 6 ∧
    1 ≤ size_in_blocks (malloc (fresh 8) 1).2 6 * block_size - block_overhead :=
  c9_payload_capacity (Reachable.start _ (by decide) (by decide))
    (by norm_num) (by norm_num) (by decide)


end Umm
